import Mathlib

/-!
Verification development for the `ot` task manager (elcuervo/ot).

The Go source is shallowly embedded: strings are `List Char`, the
regex-driven line recognizers are translated into deterministic scanners
(each regex involved is deterministic: its greedy `\s*`/`\d{n}` pieces
admit no backtracking), file-system effects (stat results, read/write/rename
outcomes, the current date) are explicit parameters, and the stateful TUI
model fields touched by the verified handlers are carried in an explicit
state record.
-/

namespace OT

/-- Strings are modelled as lists of characters. -/
abbrev Str := List Char

/-- Character class `\s` of Go's regexp (RE2): `[\t\n\f\r ]`. -/
def goSpace (c : Char) : Bool :=
  c = ' ' || c = '\t' || c = '\n' || c = '\x0c' || c = '\r'

/-- Go `unicode.IsSpace` (the White_Space property), used by `strings.TrimSpace`. -/
def uniSpace (c : Char) : Bool :=
  goSpace c || c = '\x0b' || c = '\u0085' || c = '\u00A0' || c = '\u1680' ||
  c = '\u2000' || c = '\u2001' || c = '\u2002' || c = '\u2003' || c = '\u2004' ||
  c = '\u2005' || c = '\u2006' || c = '\u2007' || c = '\u2008' || c = '\u2009' ||
  c = '\u200A' || c = '\u2028' || c = '\u2029' ||
  c = '\u202F' || c = '\u205F' || c = '\u3000'

/-- Left part of `strings.TrimSpace`. -/
def trimLeft (l : Str) : Str := l.dropWhile uniSpace

/-- Right part of `strings.TrimSpace`. -/
def trimRight (l : Str) : Str := (l.reverse.dropWhile uniSpace).reverse

/-- Model of Go `strings.TrimSpace`. -/
def trimSpace (l : Str) : Str := trimRight (trimLeft l)

/-- Removal of a trailing run of regexp-`\s` characters (the effect of a
`doneRe` match swallowing the whitespace before the appended stamp). -/
def rstripGo (l : Str) : Str := (l.reverse.dropWhile goSpace).reverse

/-- Character class `\d` of Go's regexp: `[0-9]`. -/
def isDigit (c : Char) : Bool := '0' ≤ c && c ≤ '9'

/-- Literal `-` used inside the date patterns. -/
def isDash (c : Char) : Bool := c = '-'

/-- Match a fixed-length sequence of character predicates at the head of a
string, returning the matched characters and the remainder. -/
def matchPat : List (Char → Bool) → Str → Option (Str × Str)
  | [], l => some ([], l)
  | _ :: _, [] => none
  | p :: ps, c :: l =>
    if p c then
      match matchPat ps l with
      | some (m, r) => some (c :: m, r)
      | none => none
    else none

/-- The fixed-width date pattern `\d{4}-\d{2}-\d{2}` shared by `doneRe`,
`dueDateRe` and the `time.Parse("2006-01-02", _)` layout. -/
def ymdPat : List (Char → Bool) :=
  [isDigit, isDigit, isDigit, isDigit, isDash, isDigit, isDigit, isDash, isDigit, isDigit]

/-- Match `\d{4}-\d{2}-\d{2}` at the head of a string (deterministic: all
pieces are fixed width). -/
def matchYMD (l : Str) : Option (Str × Str) := matchPat ymdPat l

/-- Numeric value of a decimal digit character. -/
def digitVal (c : Char) : Nat := c.toNat - '0'.toNat

/-- Value of a string of decimal digits. -/
def natOfDigits (l : Str) : Nat := l.foldl (fun a c => a * 10 + digitVal c) 0

/-- A calendar date, the relevant content of a Go `time.Time` at midnight UTC
(the only `time.Time` values the program compares). -/
structure YMD where
  y : Nat
  m : Nat
  d : Nat
deriving DecidableEq, Repr

/-- Gregorian leap-year rule, as implemented by Go's `time` package. -/
def isLeap (y : Nat) : Bool := y % 4 = 0 && (y % 100 ≠ 0 || y % 400 = 0)

/-- Number of days of a month, as validated by Go `time.Parse`. -/
def daysInMonth (y m : Nat) : Nat :=
  if m = 2 then (if isLeap y then 29 else 28)
  else if m = 4 || m = 6 || m = 9 || m = 11 then 30
  else 31

/-- Validity check performed by Go `time.Parse` on a `2006-01-02` layout
(month and day ranges; any four-digit year is accepted). -/
def validYMD (dt : YMD) : Bool :=
  1 ≤ dt.m && dt.m ≤ 12 && 1 ≤ dt.d && dt.d ≤ daysInMonth dt.y dt.m

/-- Build a date from the three digit groups of a `\d{4}-\d{2}-\d{2}` match,
failing exactly when Go `time.Parse` would reject the values. -/
def mkYMD (ys ms ds : Str) : Option YMD :=
  let dt : YMD := ⟨natOfDigits ys, natOfDigits ms, natOfDigits ds⟩
  if validYMD dt then some dt else none

/-- Date from the ten matched characters of `matchYMD`. -/
def ymdOfMatch (m : Str) : Option YMD :=
  mkYMD (m.take 4) ((m.drop 5).take 2) (m.drop 8)

/-- Chronological strict order on dates (midnight-UTC `time.Time.Before`). -/
def ymdLtB (a b : YMD) : Bool :=
  a.y < b.y || (a.y = b.y && (a.m < b.m || (a.m = b.m && a.d < b.d)))

/-- Chronological non-strict order on dates (`time.Time.Compare <= 0`). -/
def ymdLeB (a b : YMD) : Bool := a = b || ymdLtB a b

/-- Decimal digit character. -/
def digitChar (n : Nat) : Char := Char.ofNat ('0'.toNat + n)

/-- Two-digit zero-padded rendering (Go layout `01` / `02`). -/
def pad2 (n : Nat) : Str := [digitChar (n / 10 % 10), digitChar (n % 10)]

/-- Four-digit zero-padded rendering (Go layout `2006`); the model covers
years up to 9999, where the Go layout also prints exactly four digits. -/
def pad4 (n : Nat) : Str :=
  [digitChar (n / 1000 % 10), digitChar (n / 100 % 10), digitChar (n / 10 % 10),
   digitChar (n % 10)]

/-- Model of `time.Time.Format("2006-01-02")`. -/
def fmtYMD (dt : YMD) : Str := pad4 dt.y ++ '-' :: pad2 dt.m ++ '-' :: pad2 dt.d

/-- Rank of a priority glyph: the `emojiToPriority` map restricted to the
characters of `priorityRe`. -/
def glyphRank (c : Char) : Option Int :=
  if c = '🔺' then some 1
  else if c = '⏫' then some 2
  else if c = '🔼' then some 3
  else if c = '🔽' then some 5
  else if c = '⏬' then some 6
  else none

/-- First priority glyph of a string (`priorityRe.FindString`). -/
def findGlyph : Str → Option Char
  | [] => none
  | c :: l => if (glyphRank c).isSome then some c else findGlyph l

/-- The six priority ranks (`PriorityHighest .. PriorityLowest`). -/
def PriorityHighest : Int := 1

/-- Default priority rank (`PriorityNormal`). -/
def PriorityNormal : Int := 4

/-- Lowest priority rank (`PriorityLowest`). -/
def PriorityLowest : Int := 6

/-- The `Task` record of the Go source. -/
structure Task where
  FilePath : Str
  LineNumber : Int
  RawLine : Str
  Done : Bool
  Description : Str
  Modified : Bool
  DueDate : Option YMD
  Priority : Int
deriving DecidableEq, Repr

/-- Recognize `checkboxRe = ^(\s*-\s*)\[([ xX])\](.*)$` (deterministic: both
`\s*` are followed by characters outside `\s`). Returns the captured prefix
`\s*-\s*`, the status character, and the text after `]`. -/
def parseCheckbox (l : Str) : Option (Str × Char × Str) :=
  match l.dropWhile goSpace with
  | '-' :: r1 =>
    match r1.dropWhile goSpace with
    | '[' :: c :: ']' :: rest =>
      if c = ' ' || c = 'x' || c = 'X' then
        some (l.takeWhile goSpace ++ '-' :: r1.takeWhile goSpace, c, rest)
      else none
    | _ => none
  | _ => none

/-- Find the first match of `dueDateRe = 📅\s*(\d{4}-\d{2}-\d{2})` and return
its captured digits; scanning restarts after a failed `📅` exactly like RE2
advancing the start offset (positions that do not begin with `📅` cannot
start a match). -/
def findDueDigits : Str → Option Str
  | [] => none
  | c :: l =>
    if c = '📅' then
      match matchYMD (l.dropWhile goSpace) with
      | some (m, _) => some m
      | none => findDueDigits l
    else findDueDigits l

/-- Model of `parseDueDate`: first `dueDateRe` match, then `time.Parse`. -/
def parseDueDate (desc : Str) : Option YMD :=
  match findDueDigits desc with
  | some m => ymdOfMatch m
  | none => none

/-- Model of `parsePriority`: first glyph of `priorityRe`, else Normal. -/
def parsePriority (desc : Str) : Int :=
  match findGlyph desc with
  | some c => (glyphRank c).getD 4
  | none => 4

/-- Recognize one line with `taskRe = ^\s*-\s*\[([ xX])\]\s*(.*)$` and build
the `Task` record exactly as the loop body of `parseFile` does. -/
def parseTaskLine (fp : Str) (ln : Int) (l : Str) : Option Task :=
  match parseCheckbox l with
  | none => none
  | some (_, c, rest) =>
    let desc := trimSpace (rest.dropWhile goSpace)
    some { FilePath := fp, LineNumber := ln, RawLine := l,
           Done := c = 'x' || c = 'X', Description := desc, Modified := false,
           DueDate := parseDueDate desc, Priority := parsePriority desc }

/-- Attempt a `doneRe = \s*✅\s*\d{4}-\d{2}-\d{2}` match at the current
position, returning the remainder after the match. -/
def tryStamp (l : Str) : Option Str :=
  match l.dropWhile goSpace with
  | '✅' :: r1 =>
    match matchYMD (r1.dropWhile goSpace) with
    | some (_, rest) => some rest
    | none => none
  | _ => none

/-- Fuel-driven worker for `stripDone` (a successful match consumes at least
eleven characters, so fuel equal to the string length always suffices; the
equations are recovered below as `stripDone_nil`/`stripDone_cons`). -/
def stripDoneF : Nat → Str → Str
  | 0, l => l
  | _ + 1, [] => []
  | fuel + 1, c :: t =>
    match tryStamp (c :: t) with
    | some rest => stripDoneF fuel rest
    | none => c :: stripDoneF fuel t

/-- Model of `doneRe.ReplaceAllString(content, "")`: walk the string, at each
position attempt a (deterministic) `doneRe` match; on success drop it and
continue after the match (RE2 replacement is non-overlapping and
left-to-right), otherwise keep the character. -/
def stripDone (l : Str) : Str := stripDoneF l.length l

/-- Model of `Task.updateRawLine`, with the current date as a parameter in
place of `time.Now()`. -/
def updateRawLine (today : YMD) (t : Task) : Task :=
  match parseCheckbox t.RawLine with
  | none => t
  | some (pre, _, content) =>
    let c2 := stripDone content
    if t.Done then
      { t with RawLine := pre ++ '[' :: 'x' :: ']' :: (c2 ++ ' ' :: '✅' :: ' ' :: fmtYMD today) }
    else
      { t with RawLine := pre ++ '[' :: ' ' :: ']' :: c2 }

/-- Model of `Task.Toggle`. -/
def Task.Toggle (t : Task) (today : YMD) : Task :=
  updateRawLine today { t with Done := !t.Done, Modified := true }

/-- Model of `Task.rebuildRawLine`. -/
def rebuildRawLine (t : Task) : Task :=
  match parseCheckbox t.RawLine with
  | none => t
  | some (pre, _, _) =>
    { t with RawLine := pre ++ (if t.Done then ['[', 'x', ']'] else ['[', ' ', ']']) ++ ' ' :: t.Description }

/-- The `priorityEmojis` map (Normal maps to the empty string). -/
def priorityEmojis (p : Int) : Str :=
  if p = 1 then ['🔺']
  else if p = 2 then ['⏫']
  else if p = 3 then ['🔼']
  else if p = 5 then ['🔽']
  else if p = 6 then ['⏬']
  else []

/-- Model of `priorityRe.ReplaceAllString(desc, "")`: the pattern is a single
character class, so replacement removes every glyph character. -/
def stripGlyphs (l : Str) : Str := l.filter (fun c => !(glyphRank c).isSome)

/-- Model of `Task.SetPriority`. -/
def Task.SetPriority (t : Task) (p : Int) : Task :=
  let p2 := if p < 1 then 1 else if p > 6 then 6 else p
  let d1 := trimSpace (stripGlyphs t.Description)
  let d2 := if (priorityEmojis p2).isEmpty then d1 else d1 ++ ' ' :: priorityEmojis p2
  rebuildRawLine { t with Description := d2, Priority := p2, Modified := true }

/-- Model of `Task.CyclePriorityUp`. -/
def Task.CyclePriorityUp (t : Task) : Task := t.SetPriority (t.Priority - 1)

/-- Model of `Task.CyclePriorityDown`. -/
def Task.CyclePriorityDown (t : Task) : Task := t.SetPriority (t.Priority + 1)

/-- Model of `strings.Split(content, "\n")`. -/
def splitNl : Str → List Str
  | [] => [[]]
  | c :: t =>
    if c = '\n' then [] :: splitNl t
    else
      match splitNl t with
      | [] => [[c]]
      | s :: rest => (c :: s) :: rest

/-- Model of `strings.Join(lines, "\n")`. -/
def joinNl : List Str → Str
  | [] => []
  | [s] => s
  | s :: rest => s ++ '\n' :: joinNl rest

/-- The pure content transformation of `saveTask`: split into lines, replace
the task's line when its 1-indexed number is in range, re-join. -/
def saveTaskCore (content : Str) (t : Task) : Str :=
  let lines := splitNl content
  let lines2 :=
    if 0 < t.LineNumber ∧ t.LineNumber ≤ lines.length then
      lines.set (t.LineNumber - 1).toNat t.RawLine
    else lines
  joinNl lines2

/-- Model of `saveTask` with the outcomes of the three file-system operations
(`os.ReadFile`, `os.WriteFile` of the temp file, `os.Rename`) as parameters;
on success the result carries the content the file ends up with. -/
def saveTaskGo (readRes : Except Str Str) (writeErr : Option Str)
    (renameErr : Option Str) (t : Task) : Except Str Str :=
  match readRes with
  | .error e => .error e
  | .ok content =>
    match writeErr with
    | some e => .error e
    | none =>
      match renameErr with
      | some e => .error e
      | none => .ok (saveTaskCore content t)

/-- The `DateFilter` record of `query.go`. -/
structure DateFilter where
  Field : Str
  Operator : Str
  Date : Str
  Dates : List Str
deriving DecidableEq, Repr

/-- The `Query` record of `query.go`. -/
structure Query where
  Name : Str
  NotDone : Bool
  GroupBy : Str
  DateFilters : List DateFilter
  SortBy : Str
deriving DecidableEq, Repr

/-- The `TaskGroup` record of `query.go`. -/
structure TaskGroup where
  Name : Str
  Tasks : List Task
deriving DecidableEq, Repr

/-- The `QuerySection` record of `query.go`. -/
structure QuerySection where
  Name : Str
  Query : Query
  Groups : List TaskGroup
  Tasks : List Task
deriving DecidableEq, Repr

/-- Calendar successor, the value of Go `AddDate(0, 0, 1)` on a valid date. -/
def nextDay (dt : YMD) : YMD :=
  if dt.d < daysInMonth dt.y dt.m then ⟨dt.y, dt.m, dt.d + 1⟩
  else if dt.m < 12 then ⟨dt.y, dt.m + 1, 1⟩
  else ⟨dt.y + 1, 1, 1⟩

/-- Calendar predecessor, the value of Go `AddDate(0, 0, -1)` on a valid date. -/
def prevDay (dt : YMD) : YMD :=
  if 1 < dt.d then ⟨dt.y, dt.m, dt.d - 1⟩
  else if 1 < dt.m then ⟨dt.y, dt.m - 1, daysInMonth dt.y (dt.m - 1)⟩
  else ⟨dt.y - 1, 12, 31⟩

/-- Model of `time.Parse("2006-01-02", s)`: the whole string must be exactly
the fixed-width layout with valid month and day. -/
def parseISO (s : Str) : Option YMD :=
  match matchYMD s with
  | some (m, []) => ymdOfMatch m
  | _ => none

/-- Model of `resolveDate`, with `time.Now()`'s date as a parameter. -/
def resolveDate (today : YMD) (s : Str) : YMD :=
  if s = "today".toList then today
  else if s = "tomorrow".toList then nextDay today
  else if s = "yesterday".toList then prevDay today
  else
    match parseISO s with
    | some dt => dt
    | none => today

/-- Model of `matchDateFilter` (`startOfDay` is the identity here because
every date the model handles already lies at midnight UTC). -/
def matchDateFilter (today : YMD) (t : Task) (f : DateFilter) : Bool :=
  if f.Field = "due".toList then
    match t.DueDate with
    | none => false
    | some taskDate =>
      let target := resolveDate today f.Date
      if f.Dates.length > 0 then
        f.Dates.any (fun ds =>
          let tg := resolveDate today ds
          if f.Operator = "on".toList then taskDate = tg
          else if f.Operator = "before".toList then ymdLtB taskDate tg
          else if f.Operator = "after".toList then ymdLtB tg taskDate
          else false)
      else
        if f.Operator = "on".toList then taskDate = target
        else if f.Operator = "before".toList then ymdLtB taskDate target
        else if f.Operator = "after".toList then ymdLtB target taskDate
        else true
  else true

/-- Model of `matchAllDateFilters`. -/
def matchAllDateFilters (today : YMD) (t : Task) (fs : List DateFilter) : Bool :=
  fs.all (matchDateFilter today t)

/-- The `OperationType` enumeration of `tui.go`. -/
inductive OperationType where
  | OpToggle
  | OpDelete
  | OpPriorityChange
deriving DecidableEq, Repr

/-- The `UndoEntry` record of `tui.go` (`Type` is spelled `OpType` because
`Type` is reserved in Lean). -/
structure UndoEntry where
  OpType : OperationType
  Timestamp : Int
  FilePath : Str
  LineNumber : Int
  DeletedLine : Str
  PreviousPriority : Int
  WasDone : Bool
deriving DecidableEq, Repr

/-- The `maxUndoStackSize` constant of `tui.go`. -/
def maxUndoStackSize : Nat := 50

/-- Model of `model.pushUndo`, with `time.Now()` as a parameter. -/
def pushUndo (stack : List UndoEntry) (now : Int) (e : UndoEntry) : List UndoEntry :=
  let s2 := stack ++ [{ e with Timestamp := now }]
  if s2.length > maxUndoStackSize then s2.drop (s2.length - maxUndoStackSize) else s2

/-- Model of `model.popUndo`: the removed entry together with the remaining
stack, or `none` when the stack is empty. -/
def popUndo (stack : List UndoEntry) : Option (UndoEntry × List UndoEntry) :=
  match stack.getLast? with
  | none => none
  | some e => some (e, stack.dropLast)

/-- Model of `model.isRecentlyToggled`. -/
def isRecentlyToggled (stack : List UndoEntry) (t : Task) : Bool :=
  stack.any (fun e =>
    e.OpType = OperationType.OpToggle && e.FilePath = t.FilePath &&
    e.LineNumber = t.LineNumber)

/-- Model of `model.filterTasksWithRecent`. -/
def filterTasksWithRecent (stack : List UndoEntry) (today : YMD)
    (allTasks : List Task) (q : Query) : List Task :=
  allTasks.filter (fun t =>
    if q.DateFilters.length > 0 && !matchAllDateFilters today t q.DateFilters then false
    else if isRecentlyToggled stack t then true
    else if q.NotDone && t.Done then false
    else true)

/-- Comparator of the `"priority"` branch of `sortTasks`
(`cmp.Compare(a.Priority, b.Priority) <= 0`). -/
def priorityLE (a b : Task) : Bool := a.Priority ≤ b.Priority

/-- Comparator of the `"due"` branch of `sortTasks`: tasks without a due date
sort last, otherwise dates compare chronologically. -/
def dueLE (a b : Task) : Bool :=
  match a.DueDate, b.DueDate with
  | none, none => true
  | none, some _ => false
  | some _, none => true
  | some x, some y => ymdLeB x y

/-- Insertion of a task into a sorted list, placing the inserted (earlier)
element before the first element it compares `le` to — the tie-breaking of a
stable sort. -/
def orderedInsert (le : Task → Task → Bool) (a : Task) : List Task → List Task
  | [] => [a]
  | b :: l => if le a b then a :: b :: l else b :: orderedInsert le a l

/-- Stable sort by a total preorder comparator. A stable sort's output is
uniquely determined by the comparator, so this insertion sort is the
behaviour of Go's `slices.SortStableFunc`. -/
def insertionSort (le : Task → Task → Bool) : List Task → List Task
  | [] => []
  | a :: l => orderedInsert le a (insertionSort le l)

/-- Model of `sortTasks` (`slices.SortStableFunc` on a copy is a stable sort;
unrecognized keys return the list unchanged). -/
def sortTasks (tasks : List Task) (sortBy : Str) : List Task :=
  if sortBy = [] then tasks
  else if sortBy = "priority".toList then insertionSort priorityLE tasks
  else if sortBy = "due".toList then insertionSort dueLE tasks
  else tasks

/-- Insertion-ordered map of `query.go`, as an association list whose keys are
unique: `Set` updates an existing key in place and appends a new key. -/
def omSet : List (Str × List Task) → Str → List Task → List (Str × List Task)
  | [], k, v => [(k, v)]
  | p :: m, k, v => if p.1 = k then (k, v) :: m else p :: omSet m k v

/-- Lookup in the ordered map with the zero value of a missing key. -/
def omGet (m : List (Str × List Task)) (k : Str) : List Task :=
  match m.find? (fun p => p.1 = k) with
  | some p => p.2
  | none => []

/-- Trailing-slash stripping used by `filepath.Base`/`Dir`. -/
def dropTrailingSlashes (p : Str) : Str :=
  (p.reverse.dropWhile (fun c => c = '/')).reverse

/-- Model of Go `filepath.Base` on slash-separated paths. -/
def baseOf (p : Str) : Str :=
  if p = [] then ".".toList
  else
    let q := dropTrailingSlashes p
    if q = [] then "/".toList
    else (q.reverse.takeWhile (fun c => c ≠ '/')).reverse

/-- Model of Go `filepath.Dir` for the cleaned paths produced by `relPath`
(everything before the last slash; `.` when there is none). -/
def dirOf (p : Str) : Str :=
  let q := (p.reverse.dropWhile (fun c => c ≠ '/')).reverse
  let r := dropTrailingSlashes q
  if r = [] then (if q = [] then ".".toList else "/".toList) else r

/-- Model of the `relPath` helper (`filepath.Rel` with the path itself as the
error fallback), for targets lexically under the base. -/
def relPath (base p : Str) : Str :=
  if base = p then ".".toList
  else if (base ++ ['/']).isPrefixOf p then p.drop (base.length + 1)
  else p

/-- The group key computed by the loop body of `groupTasks`. -/
def groupKey (vaultPath : Str) (groupBy : Str) (t : Task) : Str :=
  let rel := relPath vaultPath t.FilePath
  if groupBy = "folder".toList then
    let k := dirOf rel
    if k = ".".toList then "/".toList else k
  else if groupBy = "filename".toList then baseOf t.FilePath
  else []

/-- Model of `groupTasks`. -/
def groupTasks (tasks : List Task) (groupBy sortBy vaultPath : Str) :
    List TaskGroup :=
  if groupBy = [] then [⟨[], sortTasks tasks sortBy⟩]
  else
    let buckets := tasks.foldl
      (fun m t =>
        omSet m (groupKey vaultPath groupBy t)
          (omGet m (groupKey vaultPath groupBy t) ++ [t])) []
    buckets.map (fun p => ⟨p.1, sortTasks p.2 sortBy⟩)

/-- One iteration of the section-building loop of `refreshWithCache`. -/
def buildSection (stack : List UndoEntry) (today : YMD) (vaultPath : Str)
    (allTasks : List Task) (q : Query) : QuerySection :=
  let filtered := filterTasksWithRecent stack today allTasks q
  { Name := q.Name, Query := q,
    Groups := groupTasks filtered q.GroupBy q.SortBy vaultPath,
    Tasks := filtered }

/-- The `CachedFile` record of `cache.go`, with mtime as an integer clock. -/
structure CachedFile where
  ModTime : Int
  Tasks : List Task
deriving DecidableEq, Repr

/-- The map of `TaskCache`, as an association list (the Go map is unordered;
entries are keyed by path). -/
abbrev TaskCacheMap := List (Str × CachedFile)

/-- Result of `os.Stat(path).ModTime()`: `none` on any stat error. -/
abbrev StatFn := Str → Option Int

/-- Model of `TaskCache.Get`. -/
def cacheGet (stat : StatFn) (c : TaskCacheMap) (path : Str) : Option (List Task) :=
  match c.find? (fun p => p.1 = path) with
  | none => none
  | some entry =>
    match stat path with
    | none => none
    | some m => if m > entry.2.ModTime then none else some entry.2.Tasks

/-- Model of `TaskCache.Set` (re-stats; a stat error stores nothing). -/
def cacheSet (stat : StatFn) (c : TaskCacheMap) (path : Str) (tasks : List Task) :
    TaskCacheMap :=
  match stat path with
  | none => c
  | some m => (c.filter (fun p => p.1 ≠ path)) ++ [(path, ⟨m, tasks⟩)]

/-- Model of `TaskCache.Invalidate`. -/
def cacheInvalidate (c : TaskCacheMap) (path : Str) : TaskCacheMap :=
  c.filter (fun p => p.1 ≠ path)

/-- The fields of the TUI `model` touched by the verified handlers. -/
structure ModelState where
  undoStack : List UndoEntry
  selfModifiedFiles : List (Str × Int)
  cache : TaskCacheMap
  err : Option Str
deriving DecidableEq, Repr

/-- Lookup in the `selfModifiedFiles` map. -/
def smLookup (m : List (Str × Int)) (k : Str) : Option Int :=
  (m.find? (fun p => p.1 = k)).map (fun p => p.2)

/-- Deletion from the `selfModifiedFiles` map. -/
def smErase (m : List (Str × Int)) (k : Str) : List (Str × Int) :=
  m.filter (fun p => p.1 ≠ k)

/-- Insertion into the `selfModifiedFiles` map. -/
def smSet (m : List (Str × Int)) (k : Str) (v : Int) : List (Str × Int) :=
  (m.filter (fun p => p.1 ≠ k)) ++ [(k, v)]

/-- The `FileChangeMsg` case of `model.Update`: the returned flag records
whether `Debouncer.Trigger` was called. Time is an integer millisecond clock;
`time.Since(t) < 500*time.Millisecond` becomes `now - t < 500`. -/
def handleFileChange (now : Int) (path : Str) (st : ModelState) :
    ModelState × Bool :=
  match smLookup st.selfModifiedFiles path with
  | some t0 =>
    if now - t0 < 500 then
      ({ st with selfModifiedFiles := smErase st.selfModifiedFiles path }, false)
    else
      ({ st with cache := cacheInvalidate st.cache path }, true)
  | none => ({ st with cache := cacheInvalidate st.cache path }, true)

/-- Model of `model.toggleAndSave`, with the outcome of `saveTask` as a
parameter (`none` = success). Returns the new state and the toggled task. -/
def toggleAndSave (now : Int) (today : YMD) (saveErr : Option Str)
    (st : ModelState) (task : Task) : ModelState × Task :=
  let stack1 := pushUndo st.undoStack now
    { OpType := OperationType.OpToggle, Timestamp := 0, FilePath := task.FilePath,
      LineNumber := task.LineNumber, DeletedLine := [], PreviousPriority := 0,
      WasDone := task.Done }
  let task2 := task.Toggle today
  match saveErr with
  | some e =>
    let stack2 := match popUndo stack1 with
      | some (_, s) => s
      | none => stack1
    ({ st with undoStack := stack2, err := some e }, task2)
  | none =>
    ({ st with
        undoStack := stack1,
        selfModifiedFiles := smSet st.selfModifiedFiles task.FilePath now }, task2)

/-- A task record with zero-valued fields, used to build concrete instances. -/
def baseTask : Task :=
  { FilePath := [], LineNumber := 1, RawLine := [], Done := false,
    Description := [], Modified := false, DueDate := none, Priority := 4 }

/-- A base undo entry for concrete instances. -/
def baseEntry : UndoEntry :=
  { OpType := OperationType.OpToggle, Timestamp := 0, FilePath := [],
    LineNumber := 0, DeletedLine := [], PreviousPriority := 0, WasDone := false }

/-- A fixed sample date. -/
def day0 : YMD := ⟨2026, 10, 11⟩

/-- A date filter on the syntactically accepted but unevaluated `scheduled`
field. -/
def schedFilter : DateFilter :=
  { Field := "scheduled".toList, Operator := "on".toList,
    Date := "today".toList, Dates := [] }

/-- A query carrying only the `scheduled` filter. -/
def qSched : Query :=
  { Name := [], NotDone := false, GroupBy := [], DateFilters := [schedFilter],
    SortBy := [] }

/-- A query with no grouping and a priority sort. -/
def qPrio : Query :=
  { Name := [], NotDone := false, GroupBy := [], DateFilters := [],
    SortBy := "priority".toList }

/-- A low-priority sample task. -/
def tLow : Task :=
  { baseTask with
      FilePath := "v/a.md".toList, Priority := 5, Description := "A".toList }

/-- A high-priority sample task. -/
def tHigh : Task :=
  { baseTask with
      FilePath := "v/a.md".toList, Priority := 1, Description := "B".toList }

/-- A full undo stack of fifty distinct entries. -/
def stack50 : List UndoEntry :=
  (List.range maxUndoStackSize).map (fun i => { baseEntry with LineNumber := i })

/-- A model state holding the full undo stack. -/
def st50 : ModelState :=
  { undoStack := stack50, selfModifiedFiles := [], cache := [], err := none }

/-- The plain task line of the C2 counterexample. -/
def lineA : Str := "- [ ] a".toList

/-- A task line whose done-date stamp sits between the due glyph and a second
date, so that stripping the stamp creates a due-date token. -/
def lineDue : Str := "- [ ] 📅 ✅ 2020-01-012021-03-04".toList

/-- The record extracted from `lineA`. -/
def taskA : Task :=
  { FilePath := [], LineNumber := 1, RawLine := lineA, Done := false,
    Description := "a".toList, Modified := false, DueDate := none, Priority := 4 }

/-! ### Generic list and scanner lemmas -/

lemma length_dropWhile_le (p : Char → Bool) (l : Str) :
    (l.dropWhile p).length ≤ l.length := by
  induction l with
  | nil => simp
  | cons c t ih =>
    by_cases h : p c
    · simp only [List.dropWhile_cons, h, if_pos, List.length_cons]
      omega
    · simp [List.dropWhile_cons, h]

lemma mem_of_mem_dropWhile {c : Char} {p : Char → Bool} {l : Str}
    (h : c ∈ l.dropWhile p) : c ∈ l := by
  induction l with
  | nil => simp at h
  | cons d t ih =>
    by_cases hd : p d
    · simp only [List.dropWhile_cons, hd, if_pos] at h
      exact List.mem_cons_of_mem d (ih h)
    · simp only [List.dropWhile_cons, hd] at h
      simpa using h

lemma takeWhile_append_sat {p : Char → Bool} (ws : Str) (d : Char) (r : Str)
    (hws : ∀ c ∈ ws, p c = true) (hd : p d = false) :
    (ws ++ d :: r).takeWhile p = ws := by
  induction ws with
  | nil => simp [List.takeWhile_cons, hd]
  | cons w ws ih =>
    have hw : p w = true := hws w (by simp)
    simp only [List.cons_append, List.takeWhile_cons, hw, if_pos]
    rw [ih (fun c hc => hws c (by simp [hc]))]

lemma dropWhile_append_sat {p : Char → Bool} (ws : Str) (d : Char) (r : Str)
    (hws : ∀ c ∈ ws, p c = true) (hd : p d = false) :
    (ws ++ d :: r).dropWhile p = d :: r := by
  induction ws with
  | nil => simp [List.dropWhile_cons, hd]
  | cons w ws ih =>
    have hw : p w = true := hws w (by simp)
    simp only [List.cons_append, List.dropWhile_cons, hw, if_pos]
    exact ih (fun c hc => hws c (by simp [hc]))

lemma dropWhile_append_of_ne_nil {p : Char → Bool} {l : Str} (s : Str)
    (h : l.dropWhile p ≠ []) :
    (l ++ s).dropWhile p = l.dropWhile p ++ s := by
  induction l with
  | nil => simp at h
  | cons c t ih =>
    by_cases hc : p c
    · simp only [List.dropWhile_cons, hc, if_pos] at h ⊢
      simp only [List.cons_append, List.dropWhile_cons, hc, if_pos]
      exact ih h
    · simp [List.dropWhile_cons, hc]

lemma dropWhile_append_all {p : Char → Bool} {l : Str} (s : Str)
    (h : ∀ c ∈ l, p c = true) :
    (l ++ s).dropWhile p = s.dropWhile p := by
  induction l with
  | nil => simp
  | cons c t ih =>
    have hc : p c = true := h c (by simp)
    simp only [List.cons_append, List.dropWhile_cons, hc, if_pos]
    exact ih (fun d hd => h d (by simp [hd]))

lemma matchPat_some (ps : List (Char → Bool)) (l m r : Str)
    (h : matchPat ps l = some (m, r)) : l = m ++ r ∧ m.length = ps.length := by
  induction ps generalizing l m r with
  | nil =>
    simp [matchPat] at h
    simp [h.1, h.2]
  | cons p ps ih =>
    match l with
    | [] => simp [matchPat] at h
    | c :: l =>
      simp only [matchPat] at h
      by_cases hc : p c
      · simp only [hc, if_pos] at h
        match hrec : matchPat ps l with
        | none => rw [hrec] at h; exact absurd h (by simp)
        | some (m2, r2) =>
          rw [hrec] at h
          obtain ⟨hm, hr⟩ := ih l m2 r2 hrec
          simp only [Option.some.injEq, Prod.mk.injEq] at h
          obtain ⟨h1, h2⟩ := h
          subst h1 h2
          simp [hm, hr]
      · simp [hc] at h

lemma matchPat_append_some (ps : List (Char → Bool)) (l m r s : Str)
    (h : matchPat ps l = some (m, r)) :
    matchPat ps (l ++ s) = some (m, r ++ s) := by
  induction ps generalizing l m r with
  | nil =>
    simp [matchPat] at h ⊢
    simp [h.1, h.2]
  | cons p ps ih =>
    match l with
    | [] => simp [matchPat] at h
    | c :: l =>
      simp only [matchPat] at h ⊢
      by_cases hc : p c
      · simp only [hc, if_pos] at h ⊢
        match hrec : matchPat ps l with
        | none => rw [hrec] at h; exact absurd h (by simp)
        | some (m2, r2) =>
          rw [hrec] at h
          simp only [Option.some.injEq, Prod.mk.injEq] at h
          obtain ⟨h1, h2⟩ := h
          subst h1 h2
          simp only [List.append_eq]
          rw [ih l m2 r2 hrec]
      · simp [hc] at h

lemma matchPat_append_none (ps : List (Char → Bool)) (l : Str) (c0 : Char) (z : Str)
    (hc : ∀ p ∈ ps, p c0 = false) (h : matchPat ps l = none) :
    matchPat ps (l ++ c0 :: z) = none := by
  induction ps generalizing l with
  | nil => simp [matchPat] at h
  | cons p ps ih =>
    match l with
    | [] =>
      have h0 : p c0 = false := hc p (by simp)
      simp [matchPat, h0]
    | c :: l =>
      simp only [matchPat] at h ⊢
      by_cases hpc : p c
      · simp only [hpc, if_pos] at h ⊢
        match hrec : matchPat ps l with
        | some (m2, r2) => rw [hrec] at h; simp at h
        | none =>
          simp only [List.append_eq]
          rw [ih l (fun q hq => hc q (List.mem_cons_of_mem p hq)) hrec]
      · simp [hpc]

lemma ymdPat_length : ymdPat.length = 10 := by simp [ymdPat]

lemma tryStamp_some_len {l rest : Str} (h : tryStamp l = some rest) :
    rest.length + 11 ≤ l.length := by
  unfold tryStamp at h
  split at h
  · rename_i r1 heq
    split at h
    · rename_i m rest2 hm
      injection h with h
      subst h
      obtain ⟨hsplit, hlen⟩ := matchPat_some ymdPat (r1.dropWhile goSpace) m rest2 hm
      have h1 : (r1.dropWhile goSpace).length ≤ r1.length := length_dropWhile_le _ _
      have h2 : (l.dropWhile goSpace).length ≤ l.length := length_dropWhile_le _ _
      rw [heq] at h2
      simp only [List.length_cons] at h2
      have h3 : (r1.dropWhile goSpace).length = m.length + rest2.length := by
        rw [hsplit]; simp
      rw [ymdPat_length] at hlen
      omega
    · exact absurd h (by simp)
  · exact absurd h (by simp)

lemma tryStamp_none_of_no_check {l : Str} (h : '✅' ∉ l) : tryStamp l = none := by
  unfold tryStamp
  split
  · rename_i r1 heq
    exfalso
    apply h
    apply mem_of_mem_dropWhile (p := goSpace)
    rw [heq]
    exact List.mem_cons_self _ _
  · rfl

lemma stripDoneF_congr (f1 : Nat) : ∀ (f2 : Nat) (l : Str),
    l.length ≤ f1 → l.length ≤ f2 → stripDoneF f1 l = stripDoneF f2 l := by
  induction f1 with
  | zero =>
    intro f2 l h1 _
    have hl : l = [] := List.length_eq_zero.mp (Nat.le_zero.mp h1)
    subst hl
    cases f2 <;> simp [stripDoneF]
  | succ f1 ih =>
    intro f2 l h1 h2
    match l with
    | [] => cases f2 <;> simp [stripDoneF]
    | c :: t =>
      simp only [List.length_cons] at h1 h2
      obtain ⟨g, rfl⟩ : ∃ g, f2 = g + 1 := ⟨f2 - 1, by omega⟩
      simp only [stripDoneF]
      match hts : tryStamp (c :: t) with
      | some rest =>
        have hlen := tryStamp_some_len hts
        simp only [List.length_cons] at hlen
        exact ih g rest (by omega) (by omega)
      | none =>
        rw [ih g t (by omega) (by omega)]

lemma stripDone_nil : stripDone [] = [] := rfl

lemma stripDone_cons (c : Char) (t : Str) :
    stripDone (c :: t) =
      match tryStamp (c :: t) with
      | some rest => stripDone rest
      | none => c :: stripDone t := by
  unfold stripDone
  simp only [List.length_cons, stripDoneF]
  match hts : tryStamp (c :: t) with
  | some rest =>
    have hlen := tryStamp_some_len hts
    simp only [List.length_cons] at hlen
    exact stripDoneF_congr t.length rest.length rest (by omega) le_rfl
  | none =>
    rw [stripDoneF_congr t.length t.length t le_rfl le_rfl]

lemma stripDone_no_check {l : Str} (h : '✅' ∉ l) : stripDone l = l := by
  induction l with
  | nil => rfl
  | cons c t ih =>
    rw [stripDone_cons, tryStamp_none_of_no_check h]
    rw [ih (fun hm => h (List.mem_cons_of_mem c hm))]

lemma splitNl_ne_nil (l : Str) : splitNl l ≠ [] := by
  induction l with
  | nil => simp [splitNl]
  | cons c t ih =>
    by_cases h : c = '\n'
    · simp [splitNl, h]
    · simp only [splitNl, h, if_neg]
      match hs : splitNl t with
      | [] => simp
      | s :: rest => simp

lemma joinNl_splitNl (l : Str) : joinNl (splitNl l) = l := by
  induction l with
  | nil => rfl
  | cons c t ih =>
    by_cases h : c = '\n'
    · subst h
      simp only [splitNl, if_pos]
      match hs : splitNl t with
      | [] => exact absurd hs (splitNl_ne_nil t)
      | s :: rest =>
        rw [hs] at ih
        simp only [joinNl, List.nil_append]
        rw [ih]
    · simp only [splitNl, h, if_neg]
      match hs : splitNl t with
      | [] => exact absurd hs (splitNl_ne_nil t)
      | [s] =>
        rw [hs] at ih
        simp only [joinNl] at ih ⊢
        rw [ih]
      | s :: s2 :: rest =>
        rw [hs] at ih
        simp only [joinNl] at ih ⊢
        rw [← ih]
        simp

lemma pushUndo_drop (M : List UndoEntry) (now : Int) (e : UndoEntry) :
    pushUndo (M.drop (M.length - maxUndoStackSize)) now e =
      (M ++ [{ e with Timestamp := now }]).drop ((M.length + 1) - maxUndoStackSize) := by
  unfold pushUndo maxUndoStackSize
  by_cases h : M.length < 50
  · have h0 : M.length - 50 = 0 := by omega
    have h1 : (M.length + 1) - 50 = 0 := by omega
    rw [h0, h1, List.drop_zero, List.drop_zero]
    have h2 : ¬ (M ++ [{ e with Timestamp := now }]).length > 50 := by
      simp only [List.length_append, List.length_singleton]
      omega
    simp only [h2, if_neg]
    simp
  · have h3 : (M.drop (M.length - 50)).length = 50 := by
      rw [List.length_drop]; omega
    have h4 : (M.drop (M.length - 50) ++ [{ e with Timestamp := now }]).length = 51 := by
      simp only [List.length_append, List.length_singleton, h3]
    rw [if_pos (by rw [h4]; omega)]
    rw [h4]
    have h5 : (51 : Nat) - 50 = 1 := by norm_num
    rw [h5]
    rw [List.drop_append_of_le_length (by omega : 1 ≤ (M.drop (M.length - 50)).length)]
    rw [List.drop_drop]
    rw [List.drop_append_of_le_length (by omega : (M.length + 1) - 50 ≤ M.length)]
    have h6 : M.length - 50 + 1 = M.length + 1 - 50 := by omega
    rw [h6]

lemma pushUndo_foldl (l : List (Int × UndoEntry)) :
    l.foldl (fun s pr => pushUndo s pr.1 pr.2) [] =
      (l.map (fun pr => { pr.2 with Timestamp := pr.1 })).drop
        (l.length - maxUndoStackSize) := by
  induction l using List.reverseRecOn with
  | nil => simp [maxUndoStackSize]
  | append_singleton l pr ih =>
    rw [List.foldl_append]
    simp only [List.foldl_cons, List.foldl_nil]
    rw [ih]
    have hmap : ((l ++ [pr]).map (fun pr => { pr.2 with Timestamp := pr.1 })) =
        (l.map (fun pr => { pr.2 with Timestamp := pr.1 })) ++
          [{ pr.2 with Timestamp := pr.1 }] := by simp
    rw [hmap]
    have hlen : (l ++ [pr]).length = l.length + 1 := by simp
    rw [hlen]
    have hML : (l.map (fun pr => { pr.2 with Timestamp := pr.1 })).length = l.length := by
      simp
    rw [← hML]
    exact pushUndo_drop _ pr.1 pr.2

lemma popUndo_concat (s : List UndoEntry) (e : UndoEntry) :
    popUndo (s ++ [e]) = some (e, s) := by
  unfold popUndo
  rw [List.getLast?_concat, List.dropLast_concat]

lemma popUndo_nil : popUndo [] = none := rfl

lemma pushUndo_small {s : List UndoEntry} (now : Int) (e : UndoEntry)
    (h : s.length < maxUndoStackSize) :
    pushUndo s now e = s ++ [{ e with Timestamp := now }] := by
  unfold pushUndo maxUndoStackSize
  unfold maxUndoStackSize at h
  rw [if_neg]
  simp only [List.length_append, List.length_singleton]
  omega

lemma pushUndo_full {s : List UndoEntry} (now : Int) (e : UndoEntry)
    (h : s.length = maxUndoStackSize) :
    pushUndo s now e = s.drop 1 ++ [{ e with Timestamp := now }] := by
  unfold pushUndo maxUndoStackSize
  unfold maxUndoStackSize at h
  rw [if_pos (by simp only [List.length_append, List.length_singleton]; omega)]
  have h1 : (s ++ [{ e with Timestamp := now }]).length - 50 = 1 := by
    simp only [List.length_append, List.length_singleton]
    omega
  rw [h1, List.drop_append_of_le_length (by omega : 1 ≤ s.length)]

lemma assoc_find_skip {β : Type} (c : List (Str × β)) (path : Str) (entry : β)
    (h : ∀ x ∈ c, x.1 ≠ path) :
    (c ++ [(path, entry)]).find? (fun p => p.1 = path) = some (path, entry) := by
  induction c with
  | nil => simp [List.find?]
  | cons q c ih =>
    have hq : q.1 ≠ path := h q (by simp)
    simp only [List.cons_append, List.find?]
    rw [decide_eq_false hq]
    exact ih (fun x hx => h x (by simp [hx]))

lemma assoc_find_filter_none {β : Type} (c : List (Str × β)) (path : Str) :
    (c.filter (fun p => p.1 ≠ path)).find? (fun p => p.1 = path) = none := by
  rw [List.find?_eq_none]
  intro x hx
  rw [List.mem_filter] at hx
  simpa using hx.2

/-! ### Claim theorems -/

/-- C6: the undo stack is a bounded LIFO of capacity `maxUndoStackSize = 50`:
pushing is total (the model function never fails), and after any sequence of
pushes onto an initially empty stack exactly the most recent fifty
(timestamped) entries remain, the oldest being dropped; popping removes and
returns the most recent entry, and returns nothing on the empty stack. -/
theorem c6_undo_stack_bounded :
    (∀ l : List (Int × UndoEntry),
        l.foldl (fun s pr => pushUndo s pr.1 pr.2) [] =
          (l.map (fun pr => { pr.2 with Timestamp := pr.1 })).drop
            (l.length - maxUndoStackSize)) ∧
    (∀ (s : List UndoEntry) (e : UndoEntry), popUndo (s ++ [e]) = some (e, s)) ∧
    popUndo [] = none :=
  ⟨pushUndo_foldl, popUndo_concat, popUndo_nil⟩

/-- C3: `TaskCache.Get` hits iff an entry for the path is stored and the
current mtime has not advanced past the stored one; a stat error at `Get`
time is always a miss; after `Set` (from a stat returning `m0`) a `Get`
seeing mtime `m1` hits with the stored records iff `m1 ≤ m0`, and misses
entirely when the mtime advanced; `Invalidate` unconditionally evicts, so
the next `Get` misses. -/
theorem c3_cache_mtime_gate :
    (∀ (stat : StatFn) (c : TaskCacheMap) (path : Str),
        stat path = none → cacheGet stat c path = none) ∧
    (∀ (stat0 stat1 : StatFn) (c : TaskCacheMap) (path : Str)
        (tasks : List Task) (m0 m1 : Int),
        stat0 path = some m0 → stat1 path = some m1 →
        ((cacheGet stat1 (cacheSet stat0 c path tasks) path = some tasks ↔ m1 ≤ m0) ∧
          (m0 < m1 → cacheGet stat1 (cacheSet stat0 c path tasks) path = none))) ∧
    (∀ (stat1 : StatFn) (c : TaskCacheMap) (path : Str),
        cacheGet stat1 (cacheInvalidate c path) path = none) := by
  refine ⟨?_, ?_, ?_⟩
  · intro stat c path hs
    unfold cacheGet
    match hf : c.find? (fun p => p.1 = path) with
    | none => rw [hf]
    | some entry => rw [hf, hs]
  · intro stat0 stat1 c path tasks m0 m1 h0 h1
    unfold cacheGet cacheSet
    rw [h0]
    have hfind := assoc_find_skip (c.filter (fun p => p.1 ≠ path)) path
      (⟨m0, tasks⟩ : CachedFile)
      (by intro x hx; rw [List.mem_filter] at hx; simpa using hx.2)
    rw [hfind, h1]
    dsimp only
    constructor
    · by_cases hlt : m1 > m0
      · rw [if_pos hlt]
        constructor
        · intro hcontra; exact absurd hcontra (by simp)
        · intro hle; omega
      · rw [if_neg hlt]
        constructor
        · intro _; omega
        · intro _; rfl
    · intro hadv
      rw [if_pos (by omega)]
  · intro stat1 c path
    unfold cacheGet cacheInvalidate
    rw [assoc_find_filter_none]

/-- C3 witness: the three conjuncts evaluated at concrete caches, paths and
stat functions. -/
theorem c3_witness :
    cacheGet (fun _ => none) [] [] = none ∧
    (cacheGet (fun _ => some 7) (cacheSet (fun _ => some 5) [] [] [baseTask]) [] =
        some [baseTask] ↔ (7 : Int) ≤ 5) ∧
    cacheGet (fun _ => some 7) (cacheSet (fun _ => some 5) [] [] [baseTask]) [] = none ∧
    (cacheGet (fun _ => some 5) (cacheSet (fun _ => some 5) [] [] [baseTask]) [] =
        some [baseTask] ↔ (5 : Int) ≤ 5) ∧
    cacheGet (fun _ => some 5) (cacheInvalidate (cacheSet (fun _ => some 5) [] [] [baseTask]) []) [] = none :=
  ⟨c3_cache_mtime_gate.1 (fun _ => none) [] [] rfl,
   (c3_cache_mtime_gate.2.1 (fun _ => some 5) (fun _ => some 7) [] [] [baseTask] 5 7 rfl rfl).1,
   (c3_cache_mtime_gate.2.1 (fun _ => some 5) (fun _ => some 7) [] [] [baseTask] 5 7 rfl rfl).2
     (by norm_num),
   (c3_cache_mtime_gate.2.1 (fun _ => some 5) (fun _ => some 5) [] [] [baseTask] 5 5 rfl rfl).1,
   c3_cache_mtime_gate.2.2 (fun _ => some 5)
     (cacheSet (fun _ => some 5) [] [] [baseTask]) []⟩

/-- C7: a `FileChangeMsg` for a path recorded in `selfModifiedFiles` less
than 500 ms earlier is dropped: the cache is untouched, the debouncer is not
triggered, and the suppression record is consumed, so an immediately
following event for the same path (at any time) invalidates the cache and
triggers the debouncer. -/
theorem c7_self_suppression_consumed (now t0 : Int) (path : Str) (st : ModelState)
    (hrec : smLookup st.selfModifiedFiles path = some t0)
    (hwin : now - t0 < 500) :
    handleFileChange now path st =
      ({ st with selfModifiedFiles := smErase st.selfModifiedFiles path }, false) ∧
    (handleFileChange now path st).1.cache = st.cache ∧
    smLookup (handleFileChange now path st).1.selfModifiedFiles path = none ∧
    (∀ now2 : Int,
      handleFileChange now2 path (handleFileChange now path st).1 =
        ({ (handleFileChange now path st).1 with
            cache := cacheInvalidate st.cache path }, true)) := by
  have hstep : handleFileChange now path st =
      ({ st with selfModifiedFiles := smErase st.selfModifiedFiles path }, false) := by
    unfold handleFileChange
    rw [hrec]
    simp only []
    rw [if_pos hwin]
  have herase : smLookup (smErase st.selfModifiedFiles path) path = none := by
    unfold smLookup smErase
    rw [assoc_find_filter_none]
    rfl
  refine ⟨hstep, by rw [hstep], by rw [hstep]; exact herase, ?_⟩
  intro now2
  rw [hstep]
  unfold handleFileChange
  rw [herase]

/-- C7 witness: suppression then invalidation on a concrete state. -/
theorem c7_witness :
    handleFileChange 400 [] ⟨[], [([], 0)], [([], ⟨3, []⟩)], none⟩ =
      (⟨[], [], [([], ⟨3, []⟩)], none⟩, false) ∧
    handleFileChange 900 [] (handleFileChange 400 [] ⟨[], [([], 0)], [([], ⟨3, []⟩)], none⟩).1 =
      (⟨[], [], [], none⟩, true) := by
  have h := c7_self_suppression_consumed 400 0 []
    ⟨[], [([], 0)], [([], ⟨3, []⟩)], none⟩ (by rfl) (by norm_num)
  refine ⟨?_, ?_⟩
  · rw [h.1]
    decide
  · rw [h.2.2.2 900]
    decide

/-- C8 (amended): an erroring `toggleAndSave` surfaces the error and pops the
speculative undo push; the stack is restored exactly when it was below
capacity, while at capacity the entry evicted by the push is lost (the stack
becomes the original without its oldest entry); other state fields are
untouched. -/
theorem c8_toggle_rollback_amended (now : Int) (today : YMD) (e : Str)
    (st : ModelState) (task : Task) :
    ((toggleAndSave now today (some e) st task).1.err = some e) ∧
    (st.undoStack.length < maxUndoStackSize →
      (toggleAndSave now today (some e) st task).1.undoStack = st.undoStack) ∧
    (st.undoStack.length = maxUndoStackSize →
      (toggleAndSave now today (some e) st task).1.undoStack = st.undoStack.drop 1) ∧
    ((toggleAndSave now today (some e) st task).1.selfModifiedFiles =
      st.selfModifiedFiles) ∧
    ((toggleAndSave now today (some e) st task).1.cache = st.cache) := by
  refine ⟨rfl, ?_, ?_, rfl, rfl⟩
  · intro hlen
    show (match popUndo (pushUndo st.undoStack now _) with
      | some (_, s) => s
      | none => pushUndo st.undoStack now _) = st.undoStack
    rw [pushUndo_small now _ hlen, popUndo_concat]
  · intro hlen
    show (match popUndo (pushUndo st.undoStack now _) with
      | some (_, s) => s
      | none => pushUndo st.undoStack now _) = st.undoStack.drop 1
    rw [pushUndo_full now _ hlen, popUndo_concat]

/-- C8 witness: rollback on a small concrete stack. -/
theorem c8_witness :
    (toggleAndSave 0 day0 (some "e".toList) ⟨[baseEntry], [], [], none⟩ baseTask).1.err =
      some "e".toList ∧
    (toggleAndSave 0 day0 (some "e".toList) ⟨[baseEntry], [], [], none⟩ baseTask).1.undoStack =
      [baseEntry] :=
  ⟨(c8_toggle_rollback_amended 0 day0 "e".toList ⟨[baseEntry], [], [], none⟩ baseTask).1,
   (c8_toggle_rollback_amended 0 day0 "e".toList ⟨[baseEntry], [], [], none⟩ baseTask).2.1
     (by decide)⟩

/-- C8 counterexample: with the stack at capacity (fifty entries), an
erroring toggle does not restore the stack — the oldest entry is lost, so
the stack after the error differs from the stack before it. -/
theorem c8_counterexample :
    (toggleAndSave 0 day0 (some "e".toList) st50 baseTask).1.undoStack ≠
      st50.undoStack := by
  have h := (c8_toggle_rollback_amended 0 day0 "e".toList st50 baseTask).2.2.1
    (by decide)
  rw [h]
  decide

/-- C10: `saveTask` returns an error iff reading the file, writing the temp
file, or the rename fails; under success with a line number outside
`[1, number of lines]` it reports no problem and rewrites the file with its
content unchanged. -/
theorem c10_saveTask_error_surface (readRes : Except Str Str)
    (writeErr renameErr : Option Str) (t : Task) :
    ((∃ content, saveTaskGo readRes writeErr renameErr t = .ok content) ↔
      ((∃ c0, readRes = .ok c0) ∧ writeErr = none ∧ renameErr = none)) ∧
    (∀ content, readRes = .ok content → writeErr = none → renameErr = none →
      (t.LineNumber < 1 ∨ ((splitNl content).length : Int) < t.LineNumber) →
      saveTaskGo readRes writeErr renameErr t = .ok content) := by
  constructor
  · cases readRes <;> cases writeErr <;> cases renameErr <;>
      simp [saveTaskGo]
  · intro content hr hw hre hrange
    subst hr hw hre
    unfold saveTaskGo saveTaskCore
    dsimp only
    have hcond : ¬ (0 < t.LineNumber ∧ t.LineNumber ≤ ((splitNl content).length : Int)) := by
      omega
    rw [if_neg hcond, joinNl_splitNl]

/-- C10 witness: error surfacing and the out-of-range no-op on concrete
file contents. -/
theorem c10_witness :
    ((∃ content, saveTaskGo (.error "ioerr".toList) none none baseTask = .ok content) ↔
      ((∃ c0, (.error "ioerr".toList : Except Str Str) = .ok c0) ∧
        (none : Option Str) = none ∧ (none : Option Str) = none)) ∧
    saveTaskGo (.ok "l1\nl2".toList) none none
      { baseTask with LineNumber := 5, RawLine := "XX".toList } =
      .ok "l1\nl2".toList :=
  ⟨(c10_saveTask_error_surface (.error "ioerr".toList) none none baseTask).1,
   (c10_saveTask_error_surface (.ok "l1\nl2".toList) none none
      { baseTask with LineNumber := 5, RawLine := "XX".toList }).2
     "l1\nl2".toList rfl rfl rfl (by right; decide)⟩

lemma mem_orderedInsert {le : Task → Task → Bool} {a x : Task} {l : List Task} :
    x ∈ orderedInsert le a l ↔ x = a ∨ x ∈ l := by
  induction l with
  | nil => simp [orderedInsert]
  | cons b l ih =>
    by_cases h : le a b
    · simp [orderedInsert, h]
    · simp only [orderedInsert, h, if_neg, Bool.not_eq_true, List.mem_cons, ih]
      tauto

lemma orderedInsert_perm (le : Task → Task → Bool) (a : Task) (l : List Task) :
    List.Perm (orderedInsert le a l) (a :: l) := by
  induction l with
  | nil => simp [orderedInsert]
  | cons b l ih =>
    by_cases h : le a b
    · simp [orderedInsert, h]
    · simp only [orderedInsert, h, if_neg, Bool.not_eq_true]
      exact (ih.cons b).trans (List.Perm.swap a b l)

lemma insertionSort_perm (le : Task → Task → Bool) (l : List Task) :
    List.Perm (insertionSort le l) l := by
  induction l with
  | nil => simp [insertionSort]
  | cons a l ih =>
    exact (orderedInsert_perm le a (insertionSort le l)).trans (ih.cons a)

lemma orderedInsert_pairwise (le : Task → Task → Bool)
    (htrans : ∀ x y z, le x y = true → le y z = true → le x z = true)
    (htotal : ∀ x y, (le x y || le y x) = true)
    (a : Task) (l : List Task) (hl : l.Pairwise (fun x y => le x y = true)) :
    (orderedInsert le a l).Pairwise (fun x y => le x y = true) := by
  induction l with
  | nil => simp [orderedInsert]
  | cons b l ih =>
    rw [List.pairwise_cons] at hl
    obtain ⟨hb, hpl⟩ := hl
    by_cases h : le a b
    · simp only [orderedInsert, h, if_pos]
      rw [List.pairwise_cons]
      refine ⟨?_, List.pairwise_cons.mpr ⟨hb, hpl⟩⟩
      intro y hy
      rcases List.mem_cons.mp hy with rfl | hy2
      · exact h
      · exact htrans a b y h (hb y hy2)
    · simp only [orderedInsert, h, if_neg, Bool.not_eq_true]
      rw [List.pairwise_cons]
      refine ⟨?_, ih hpl⟩
      intro y hy
      rcases mem_orderedInsert.mp hy with rfl | hy2
      · have htot := htotal y b
        have hfalse : le y b = false := by
          simpa using h
        rw [hfalse] at htot
        simpa using htot
      · exact hb y hy2

lemma insertionSort_pairwise (le : Task → Task → Bool)
    (htrans : ∀ x y z, le x y = true → le y z = true → le x z = true)
    (htotal : ∀ x y, (le x y || le y x) = true) (l : List Task) :
    (insertionSort le l).Pairwise (fun x y => le x y = true) := by
  induction l with
  | nil => simp [insertionSort]
  | cons a l ih => exact orderedInsert_pairwise le htrans htotal a _ ih

lemma orderedInsert_filter {β : Type} [DecidableEq β] (key : Task → β)
    (le : Task → Task → Bool) (hkey : ∀ x y, key x = key y → le x y = true)
    (a : Task) (l : List Task) (k : β) :
    (orderedInsert le a l).filter (fun x => key x = k) =
      if key a = k then a :: l.filter (fun x => key x = k)
      else l.filter (fun x => key x = k) := by
  induction l with
  | nil =>
    by_cases hak : key a = k <;> simp [orderedInsert, List.filter_cons, hak]
  | cons b l ih =>
    by_cases h : le a b
    · by_cases hak : key a = k <;>
        simp [orderedInsert, h, List.filter_cons, hak]
    · simp only [orderedInsert, h, if_neg, Bool.not_eq_true, List.filter_cons]
      by_cases hak : key a = k
      · have hbk : ¬ (key b = k) := by
          intro hbk2
          have hab : le a b = true := hkey a b (by rw [hak, hbk2])
          simp [hab] at h
        simp only [hak, if_pos] at ih
        simp [hbk, ih, hak]
      · simp only [hak, if_neg] at ih
        by_cases hbk : key b = k <;> simp [hbk, ih, hak]

lemma insertionSort_filter {β : Type} [DecidableEq β] (key : Task → β)
    (le : Task → Task → Bool) (hkey : ∀ x y, key x = key y → le x y = true)
    (l : List Task) (k : β) :
    (insertionSort le l).filter (fun x => key x = k) =
      l.filter (fun x => key x = k) := by
  induction l with
  | nil => simp [insertionSort]
  | cons a l ih =>
    rw [show insertionSort le (a :: l) = orderedInsert le a (insertionSort le l) from rfl]
    rw [orderedInsert_filter key le hkey a _ k, ih]
    by_cases hak : key a = k <;> simp [List.filter_cons, hak]

lemma priorityLE_trans (x y z : Task) (h1 : priorityLE x y = true)
    (h2 : priorityLE y z = true) : priorityLE x z = true := by
  simp only [priorityLE, decide_eq_true_eq] at h1 h2 ⊢
  omega

lemma priorityLE_total (x y : Task) : (priorityLE x y || priorityLE y x) = true := by
  simp only [priorityLE, Bool.or_eq_true, decide_eq_true_eq]
  omega

lemma priorityLE_key (x y : Task) (h : x.Priority = y.Priority) :
    priorityLE x y = true := by
  simp [priorityLE, h]

lemma ymdLeB_trans (a b c : YMD) (h1 : ymdLeB a b = true)
    (h2 : ymdLeB b c = true) : ymdLeB a c = true := by
  obtain ⟨y1, m1, d1⟩ := a
  obtain ⟨y2, m2, d2⟩ := b
  obtain ⟨y3, m3, d3⟩ := c
  simp only [ymdLeB, ymdLtB, YMD.mk.injEq, Bool.or_eq_true, Bool.and_eq_true,
    decide_eq_true_eq] at h1 h2 ⊢
  omega

lemma ymdLeB_total (a b : YMD) : (ymdLeB a b || ymdLeB b a) = true := by
  obtain ⟨y1, m1, d1⟩ := a
  obtain ⟨y2, m2, d2⟩ := b
  simp only [ymdLeB, ymdLtB, YMD.mk.injEq, Bool.or_eq_true, Bool.and_eq_true,
    decide_eq_true_eq]
  omega

lemma dueLE_trans (x y z : Task) (h1 : dueLE x y = true)
    (h2 : dueLE y z = true) : dueLE x z = true := by
  cases ha : x.DueDate <;> cases hb : y.DueDate <;> cases hc2 : z.DueDate <;>
    simp_all [dueLE]
  exact ymdLeB_trans _ _ _ h1 h2

lemma dueLE_total (x y : Task) : (dueLE x y || dueLE y x) = true := by
  cases ha : x.DueDate <;> cases hb : y.DueDate <;> simp_all [dueLE]
  rename_i dx dy
  have h := ymdLeB_total dx dy
  simpa using h

lemma dueLE_key (x y : Task) (h : x.DueDate = y.DueDate) : dueLE x y = true := by
  cases hb : y.DueDate <;> rw [hb] at h <;> simp [dueLE, h, hb, ymdLeB]

/-- C5: `sortTasks` is a stable sort (the model is pure, so the input list is
never mutated): under `priority` the output is a permutation sorted by
ascending rank (Highest first) whose equal-priority records keep their
relative order; under `due` the output is sorted by the due comparator
(ascending dates, no-date records last) and equal-due-date records keep
their relative order. -/
theorem c5_sortTasks_stable (tasks : List Task) :
    (List.Perm (sortTasks tasks "priority".toList) tasks) ∧
    ((sortTasks tasks "priority".toList).Pairwise
      (fun a b => a.Priority ≤ b.Priority)) ∧
    (∀ p : Int, (sortTasks tasks "priority".toList).filter (fun x => x.Priority = p) =
      tasks.filter (fun x => x.Priority = p)) ∧
    (List.Perm (sortTasks tasks "due".toList) tasks) ∧
    ((sortTasks tasks "due".toList).Pairwise (fun a b => dueLE a b = true)) ∧
    (∀ dd : Option YMD,
      (sortTasks tasks "due".toList).filter (fun x => x.DueDate = dd) =
        tasks.filter (fun x => x.DueDate = dd)) := by
  have hsp : sortTasks tasks "priority".toList = insertionSort priorityLE tasks := rfl
  have hsd : sortTasks tasks "due".toList = insertionSort dueLE tasks := rfl
  refine ⟨?_, ?_, ?_, ?_, ?_, ?_⟩
  · rw [hsp]; exact insertionSort_perm _ _
  · rw [hsp]
    have hpw := insertionSort_pairwise priorityLE priorityLE_trans priorityLE_total tasks
    exact hpw.imp (fun h => by simpa [priorityLE] using h)
  · intro p
    rw [hsp]
    exact insertionSort_filter (fun x => x.Priority) priorityLE priorityLE_key tasks p
  · rw [hsd]; exact insertionSort_perm _ _
  · rw [hsd]; exact insertionSort_pairwise dueLE dueLE_trans dueLE_total tasks
  · intro dd
    rw [hsd]
    exact insertionSort_filter (fun x => x.DueDate) dueLE dueLE_key tasks dd

lemma findGlyph_some {l : Str} {c : Char} (h : findGlyph l = some c) :
    (glyphRank c).isSome = true := by
  induction l with
  | nil => simp [findGlyph] at h
  | cons d t ih =>
    simp only [findGlyph] at h
    by_cases hd : (glyphRank d).isSome = true
    · rw [if_pos hd] at h
      injection h with h
      subst h
      exact hd
    · rw [if_neg hd] at h
      exact ih h

lemma findGlyph_none {l : Str} (h : ∀ c ∈ l, glyphRank c = none) :
    findGlyph l = none := by
  induction l with
  | nil => rfl
  | cons d t ih =>
    have hd : glyphRank d = none := h d (by simp)
    simp only [findGlyph, hd, Option.isSome_none, Bool.false_eq_true, if_false]
    exact ih (fun c hc => h c (by simp [hc]))

lemma glyphRank_cases (c : Char) (h : (glyphRank c).isSome = true) :
    glyphRank c = some 1 ∨ glyphRank c = some 2 ∨ glyphRank c = some 3 ∨
      glyphRank c = some 5 ∨ glyphRank c = some 6 := by
  unfold glyphRank at h ⊢
  split_ifs at h ⊢ <;> simp_all

lemma parsePriority_bounds (d : Str) :
    1 ≤ parsePriority d ∧ parsePriority d ≤ 6 := by
  unfold parsePriority
  match hf : findGlyph d with
  | none => norm_num
  | some c =>
    dsimp only
    rcases glyphRank_cases c (findGlyph_some hf) with h | h | h | h | h <;>
      rw [h] <;> norm_num

lemma setPriority_priority (t : Task) (p : Int) :
    (t.SetPriority p).Priority = if p < 1 then 1 else if p > 6 then 6 else p := by
  unfold Task.SetPriority rebuildRawLine
  dsimp only
  split <;> rfl

/-- C9: the priority invariant. Extraction yields a rank in `[1, 6]`: the
first recognized glyph maps to its rank and a glyph-free description maps to
Normal; `SetPriority` clamps any argument into `[1, 6]`; cycling up or down
always stays in range, in particular cycling up at Highest and down at
Lowest stay at the boundary. -/
theorem c9_priority_range (d : Str) (t : Task) (p : Int) :
    (1 ≤ parsePriority d ∧ parsePriority d ≤ 6) ∧
    ((∀ c ∈ d, glyphRank c = none) → parsePriority d = PriorityNormal) ∧
    (∀ g, findGlyph d = some g → glyphRank g = some (parsePriority d)) ∧
    (1 ≤ (t.SetPriority p).Priority ∧ (t.SetPriority p).Priority ≤ 6) ∧
    (1 ≤ t.CyclePriorityUp.Priority ∧ t.CyclePriorityUp.Priority ≤ 6) ∧
    (1 ≤ t.CyclePriorityDown.Priority ∧ t.CyclePriorityDown.Priority ≤ 6) ∧
    (t.Priority = PriorityHighest → t.CyclePriorityUp.Priority = PriorityHighest) ∧
    (t.Priority = PriorityLowest → t.CyclePriorityDown.Priority = PriorityLowest) := by
  refine ⟨parsePriority_bounds d, ?_, ?_, ?_, ?_, ?_, ?_, ?_⟩
  · intro hng
    unfold parsePriority PriorityNormal
    rw [findGlyph_none hng]
  · intro g hg
    unfold parsePriority
    rw [hg]
    dsimp only
    rcases glyphRank_cases g (findGlyph_some hg) with h | h | h | h | h <;>
      rw [h] <;> rfl
  · rw [setPriority_priority]
    split_ifs <;> omega
  · unfold Task.CyclePriorityUp
    rw [setPriority_priority]
    split_ifs <;> omega
  · unfold Task.CyclePriorityDown
    rw [setPriority_priority]
    split_ifs <;> omega
  · intro hp
    unfold Task.CyclePriorityUp PriorityHighest
    rw [setPriority_priority, hp]
    norm_num [PriorityHighest]
  · intro hp
    unfold Task.CyclePriorityDown PriorityLowest
    rw [setPriority_priority, hp]
    norm_num [PriorityLowest]

/-- C9 witness: the range facts evaluated at concrete descriptions, tasks
and arguments. -/
theorem c9_witness :
    parsePriority "plain".toList = PriorityNormal ∧
    glyphRank '⏬' = some (parsePriority "a ⏬ b".toList) ∧
    (1 ≤ (baseTask.SetPriority 99).Priority ∧ (baseTask.SetPriority 99).Priority ≤ 6) ∧
    ({ baseTask with Priority := 1 } : Task).CyclePriorityUp.Priority = PriorityHighest ∧
    ({ baseTask with Priority := 6 } : Task).CyclePriorityDown.Priority = PriorityLowest :=
  ⟨(c9_priority_range "plain".toList baseTask 0).2.1 (by decide),
   (c9_priority_range "a ⏬ b".toList baseTask 0).2.2.1 '⏬' (by decide),
   (c9_priority_range [] baseTask 99).2.2.2.1,
   (c9_priority_range [] { baseTask with Priority := 1 } 0).2.2.2.2.2.2.1 rfl,
   (c9_priority_range [] { baseTask with Priority := 6 } 0).2.2.2.2.2.2.2 rfl⟩

/-- C1 counterexample: a record with no `DueDate` passes a `scheduled` date
filter (the field is syntactically accepted but not evaluated), so with such
a filter present and `NotDone` off, the record is retained — contradicting
"a record with no DueDate fails any date filter". -/
theorem c1_counterexample :
    baseTask.DueDate = none ∧
    qSched.DateFilters = [schedFilter] ∧
    schedFilter.Field = "scheduled".toList ∧
    matchDateFilter day0 baseTask schedFilter = true ∧
    filterTasksWithRecent [] day0 [baseTask] qSched = [baseTask] := by
  refine ⟨rfl, rfl, rfl, ?_, ?_⟩ <;> decide

/-- C1 (amended): a record is retained by the refresh filter iff it matches
every `DateFilter` of the query and (the query's `NotDone` is off, or the
record is not `Done`, or it is recently toggled); a record with no `DueDate`
fails every date filter whose field is `due`, while filters on any other
field (`scheduled`, `done`, or unrecognized) are inert and match every
record. -/
theorem c1_filter_retention_amended (stack : List UndoEntry) (today : YMD)
    (allTasks : List Task) (q : Query) (t : Task) :
    (t ∈ filterTasksWithRecent stack today allTasks q ↔
      (t ∈ allTasks ∧ matchAllDateFilters today t q.DateFilters = true ∧
        (isRecentlyToggled stack t = true ∨ q.NotDone = false ∨ t.Done = false))) ∧
    (∀ f : DateFilter, f.Field = "due".toList → t.DueDate = none →
      matchDateFilter today t f = false) ∧
    (∀ f : DateFilter, f.Field ≠ "due".toList → matchDateFilter today t f = true) := by
  refine ⟨?_, ?_, ?_⟩
  · unfold filterTasksWithRecent
    rw [List.mem_filter]
    have hpred : ((if q.DateFilters.length > 0 &&
          !matchAllDateFilters today t q.DateFilters then false
        else if isRecentlyToggled stack t then true
        else if q.NotDone && t.Done then false
        else true) = true) ↔
        (matchAllDateFilters today t q.DateFilters = true ∧
          (isRecentlyToggled stack t = true ∨ q.NotDone = false ∨ t.Done = false)) := by
      cases hdf : q.DateFilters with
      | nil =>
        have hma : matchAllDateFilters today t [] = true := rfl
        cases hr : isRecentlyToggled stack t <;>
          cases hnd : q.NotDone <;> cases hdn : t.Done <;>
            simp [hma]
      | cons f fs =>
        cases hma : matchAllDateFilters today t (f :: fs) <;>
          cases hr : isRecentlyToggled stack t <;>
            cases hnd : q.NotDone <;> cases hdn : t.Done <;>
              simp [hma]
    rw [hpred]
  · intro f hf hdue
    unfold matchDateFilter
    rw [if_pos hf, hdue]
  · intro f hf
    unfold matchDateFilter
    rw [if_neg hf]

/-- C1 witness: the amended retention rule and the due-field absence rule
evaluated at concrete inputs. -/
theorem c1_witness :
    matchDateFilter day0 baseTask
      ⟨"due".toList, "on".toList, "today".toList, []⟩ = false ∧
    (baseTask ∈ filterTasksWithRecent [] day0 [baseTask] qSched ↔
      (baseTask ∈ [baseTask] ∧
        matchAllDateFilters day0 baseTask qSched.DateFilters = true ∧
        (isRecentlyToggled [] baseTask = true ∨ qSched.NotDone = false ∨
          baseTask.Done = false))) ∧
    matchDateFilter day0 baseTask schedFilter = true :=
  ⟨(c1_filter_retention_amended [] day0 [baseTask] qSched baseTask).2.1
      ⟨"due".toList, "on".toList, "today".toList, []⟩ rfl rfl,
   (c1_filter_retention_amended [] day0 [baseTask] qSched baseTask).1,
   (c1_filter_retention_amended [] day0 [baseTask] qSched baseTask).2.2
      schedFilter (by decide)⟩

lemma sortTasks_perm (l : List Task) (sb : Str) :
    List.Perm (sortTasks l sb) l := by
  unfold sortTasks
  split_ifs
  · exact List.Perm.refl l
  · exact insertionSort_perm _ _
  · exact insertionSort_perm _ _
  · exact List.Perm.refl l

lemma omGet_cons_eq {p : Str × List Task} {m : List (Str × List Task)} {k : Str}
    (h : p.1 = k) : omGet (p :: m) k = p.2 := by
  unfold omGet
  simp [List.find?, h]

lemma omGet_cons_ne {p : Str × List Task} {m : List (Str × List Task)} {k : Str}
    (h : p.1 ≠ k) : omGet (p :: m) k = omGet m k := by
  unfold omGet
  simp [List.find?, h]

lemma omStep_flatten (m : List (Str × List Task)) (k : Str) (t : Task) :
    List.Perm (((omSet m k (omGet m k ++ [t])).map Prod.snd).flatten)
      ((m.map Prod.snd).flatten ++ [t]) := by
  induction m with
  | nil =>
    simp [omSet, omGet, List.find?]
  | cons p m ih =>
    by_cases hp : p.1 = k
    · rw [omGet_cons_eq hp]
      rw [show omSet (p :: m) k (p.2 ++ [t]) = (k, p.2 ++ [t]) :: m from by
        simp [omSet, hp]]
      simp only [List.map_cons, List.flatten_cons]
      rw [List.append_assoc, List.append_assoc]
      exact List.Perm.append_left p.2 List.perm_append_comm
    · rw [omGet_cons_ne hp]
      rw [show omSet (p :: m) k (omGet m k ++ [t]) =
          p :: omSet m k (omGet m k ++ [t]) from by
        simp [omSet, hp]]
      simp only [List.map_cons, List.flatten_cons]
      rw [List.append_assoc]
      exact List.Perm.append_left p.2 ih

lemma omFold_flatten (key : Task → Str) (ts : List Task) :
    ∀ m : List (Str × List Task),
      List.Perm
        (((ts.foldl (fun acc t => omSet acc (key t) (omGet acc (key t) ++ [t])) m).map
            Prod.snd).flatten)
        ((m.map Prod.snd).flatten ++ ts) := by
  induction ts with
  | nil => intro m; simp
  | cons t ts ih =>
    intro m
    simp only [List.foldl_cons]
    refine (ih (omSet m (key t) (omGet m (key t) ++ [t]))).trans ?_
    have hstep := omStep_flatten m (key t) t
    refine (hstep.append_right ts).trans ?_
    rw [List.append_assoc, List.singleton_append]

lemma flatten_map_sort_perm (bs : List (Str × List Task)) (sb : Str) :
    List.Perm ((bs.map (fun p => sortTasks p.2 sb)).flatten)
      ((bs.map Prod.snd).flatten) := by
  induction bs with
  | nil => simp
  | cons p bs ih =>
    simp only [List.map_cons, List.flatten_cons]
    exact (sortTasks_perm p.2 sb).append ih

/-- C4 counterexample: with no `GroupBy` but `sort by priority`, the single
group holds the records in sorted order while `Section.Tasks` keeps the
extraction order, so `Section.Tasks` is not the concatenation of the groups,
and the single unnamed group does not hold the records in original order. -/
theorem c4_counterexample :
    (buildSection [] day0 "v".toList [tLow, tHigh] qPrio).Tasks = [tLow, tHigh] ∧
    (buildSection [] day0 "v".toList [tLow, tHigh] qPrio).Groups =
      [⟨[], [tHigh, tLow]⟩] ∧
    ((buildSection [] day0 "v".toList [tLow, tHigh] qPrio).Groups.map
        TaskGroup.Tasks).flatten ≠
      (buildSection [] day0 "v".toList [tLow, tHigh] qPrio).Tasks ∧
    qPrio.GroupBy = [] := by
  refine ⟨?_, ?_, ?_, rfl⟩ <;> decide

/-- C4 (amended): `Section.Tasks` holds the filtered records in extraction
order; the concatenation of the groups' task lists is a permutation of
`Section.Tasks` (equal to it when the query has neither `GroupBy` nor
`SortBy`); with no `GroupBy`, grouping yields exactly one unnamed group
holding all filtered records sorted per `SortBy` — in the original order
only when `SortBy` is empty. -/
theorem c4_section_groups_amended (stack : List UndoEntry) (today : YMD)
    (vaultPath : Str) (allTasks : List Task) (q : Query) :
    ((buildSection stack today vaultPath allTasks q).Tasks =
      filterTasksWithRecent stack today allTasks q) ∧
    (List.Perm
      (((buildSection stack today vaultPath allTasks q).Groups.map
          TaskGroup.Tasks).flatten)
      ((buildSection stack today vaultPath allTasks q).Tasks)) ∧
    (q.GroupBy = [] →
      (buildSection stack today vaultPath allTasks q).Groups =
        [⟨[], sortTasks (filterTasksWithRecent stack today allTasks q) q.SortBy⟩]) ∧
    (q.GroupBy = [] → q.SortBy = [] →
      (((buildSection stack today vaultPath allTasks q).Groups.map
          TaskGroup.Tasks).flatten) =
        (buildSection stack today vaultPath allTasks q).Tasks) := by
  have hgroups : (buildSection stack today vaultPath allTasks q).Groups =
      groupTasks (filterTasksWithRecent stack today allTasks q) q.GroupBy q.SortBy
        vaultPath := rfl
  have htasks : (buildSection stack today vaultPath allTasks q).Tasks =
      filterTasksWithRecent stack today allTasks q := rfl
  refine ⟨htasks, ?_, ?_, ?_⟩
  · rw [hgroups, htasks]
    unfold groupTasks
    by_cases hgb : q.GroupBy = []
    · rw [if_pos hgb]
      simp only [List.map_cons, List.map_nil, List.flatten_cons, List.flatten_nil,
        List.append_nil]
      exact sortTasks_perm _ _
    · rw [if_neg hgb]
      dsimp only
      rw [List.map_map]
      have hcomp : (TaskGroup.Tasks ∘ fun p => TaskGroup.mk p.1 (sortTasks p.2 q.SortBy)) =
          fun p : Str × List Task => sortTasks p.2 q.SortBy := rfl
      rw [hcomp]
      refine (flatten_map_sort_perm _ q.SortBy).trans ?_
      have hfold := omFold_flatten (groupKey vaultPath q.GroupBy)
        (filterTasksWithRecent stack today allTasks q) []
      simpa using hfold
  · intro hgb
    rw [hgroups]
    unfold groupTasks
    rw [if_pos hgb]
  · intro hgb hsb
    rw [hgroups, htasks]
    unfold groupTasks
    rw [if_pos hgb]
    have hsort : sortTasks (filterTasksWithRecent stack today allTasks q) q.SortBy =
        filterTasksWithRecent stack today allTasks q := by
      rw [hsb]
      rfl
    rw [hsort]
    simp

/-- C4 witness: the amended statement evaluated on a concrete section — the
grouped/sorted permutation, the single-group shape for an ungrouped query,
and equality for a query with neither grouping nor sorting. -/
theorem c4_witness :
    (buildSection [] day0 "v".toList [tLow, tHigh] qPrio).Groups =
      [⟨[], sortTasks [tLow, tHigh] "priority".toList⟩] ∧
    (((buildSection [] day0 "v".toList [tLow, tHigh] qSched).Groups.map
        TaskGroup.Tasks).flatten) =
      (buildSection [] day0 "v".toList [tLow, tHigh] qSched).Tasks :=
  ⟨(c4_section_groups_amended [] day0 "v".toList [tLow, tHigh] qPrio).2.2.1 rfl,
   (c4_section_groups_amended [] day0 "v".toList [tLow, tHigh] qSched).2.2.2 rfl rfl⟩

lemma go_imp_uni {c : Char} (h : goSpace c = true) : uniSpace c = true := by
  unfold uniSpace
  rw [h]
  rfl

lemma digitChar_facts (n : Nat) (h : n < 10) :
    isDigit (digitChar n) = true ∧ digitChar n ≠ '📅' ∧ digitChar n ≠ '✅' ∧
      glyphRank (digitChar n) = none ∧ goSpace (digitChar n) = false ∧
      uniSpace (digitChar n) = false := by
  interval_cases n <;> exact ⟨by decide, by decide, by decide, by decide, by decide, by decide⟩

lemma fmt_mem_cases {dt : YMD} {c : Char} (hc : c ∈ fmtYMD dt) :
    (∃ n, n < 10 ∧ c = digitChar n) ∨ c = '-' := by
  simp only [fmtYMD, pad4, pad2, List.cons_append, List.nil_append, List.mem_cons,
    List.not_mem_nil, or_false] at hc
  rcases hc with rfl | rfl | rfl | rfl | rfl | rfl | rfl | rfl | rfl | rfl
  · exact Or.inl ⟨_, Nat.mod_lt _ (by norm_num), rfl⟩
  · exact Or.inl ⟨_, Nat.mod_lt _ (by norm_num), rfl⟩
  · exact Or.inl ⟨_, Nat.mod_lt _ (by norm_num), rfl⟩
  · exact Or.inl ⟨_, Nat.mod_lt _ (by norm_num), rfl⟩
  · exact Or.inr rfl
  · exact Or.inl ⟨_, Nat.mod_lt _ (by norm_num), rfl⟩
  · exact Or.inl ⟨_, Nat.mod_lt _ (by norm_num), rfl⟩
  · exact Or.inr rfl
  · exact Or.inl ⟨_, Nat.mod_lt _ (by norm_num), rfl⟩
  · exact Or.inl ⟨_, Nat.mod_lt _ (by norm_num), rfl⟩

lemma fmt_chars {dt : YMD} {c : Char} (hc : c ∈ fmtYMD dt) :
    c ≠ '📅' ∧ c ≠ '✅' ∧ glyphRank c = none ∧ goSpace c = false := by
  rcases fmt_mem_cases hc with ⟨n, hn, rfl⟩ | rfl
  · obtain ⟨_, h2, h3, h4, h5, _⟩ := digitChar_facts n hn
    exact ⟨h2, h3, h4, h5⟩
  · exact ⟨by decide, by decide, by decide, by decide⟩

lemma matchYMD_fmt (dt : YMD) (r : Str) :
    matchYMD (fmtYMD dt ++ r) = some (fmtYMD dt, r) := by
  have hd : ∀ k : Nat, isDigit (digitChar (k % 10)) = true :=
    fun k => (digitChar_facts (k % 10) (Nat.mod_lt _ (by norm_num))).1
  have hdash : isDash '-' = true := rfl
  simp [matchYMD, fmtYMD, pad4, pad2, ymdPat, matchPat, hd, hdash]

lemma uniSpace_char_facts {c : Char} (h : uniSpace c = true) :
    c ≠ '📅' ∧ c ≠ '✅' ∧ (∀ p ∈ ymdPat, p c = false) ∧ glyphRank c = none := by
  have hmem : c ∈ ([' ', '\t', '\n', '\x0c', '\r', '\x0b', '\u0085', '\u00A0',
      '\u1680', '\u2000', '\u2001', '\u2002', '\u2003', '\u2004', '\u2005',
      '\u2006', '\u2007', '\u2008', '\u2009', '\u200A', '\u2028', '\u2029',
      '\u202F', '\u205F', '\u3000'] : List Char) := by
    simp only [uniSpace, goSpace, Bool.or_eq_true, decide_eq_true_eq] at h
    simp only [List.mem_cons, List.not_mem_nil, or_false]
    tauto
  fin_cases hmem <;>
    exact ⟨by decide, by decide,
      by intro q hq; simp only [ymdPat] at hq; fin_cases hq <;> decide,
      by decide⟩

lemma ymdPat_space : ∀ p ∈ ymdPat, p ' ' = false :=
  (uniSpace_char_facts (by decide : uniSpace ' ' = true)).2.2.1

lemma matchYMD_uniSpace_lead {y : Str} (h : ∀ c ∈ y, uniSpace c = true) :
    matchYMD y = none := by
  match y with
  | [] => rfl
  | c :: y2 =>
    have hc := (uniSpace_char_facts (h c (by simp))).2.2.1 isDigit (by simp [ymdPat])
    simp [matchYMD, ymdPat, matchPat, hc]

lemma matchYMD_check_lead (x : Str) : matchYMD ('✅' :: x) = none := by
  simp [matchYMD, ymdPat, matchPat, isDigit]

lemma dropWhile_ne_nil_of_not_all {p : Char → Bool} {l : Str}
    (h : ¬ ∀ a ∈ l, p a = true) : l.dropWhile p ≠ [] := by
  intro hnil
  exact h (fun a ha => List.dropWhile_eq_nil_iff.mp hnil a ha)

lemma rstripGo_all_space {s : Str} (h : ∀ a ∈ s, goSpace a = true) :
    rstripGo s = [] := by
  unfold rstripGo
  have : s.reverse.dropWhile goSpace = [] :=
    List.dropWhile_eq_nil_iff.mpr (fun a ha => h a (List.mem_reverse.mp ha))
  rw [this]
  rfl

lemma rstripGo_ne_nil {s : Str} (h : ¬ ∀ a ∈ s, goSpace a = true) :
    rstripGo s ≠ [] := by
  unfold rstripGo
  intro hnil
  rw [List.reverse_eq_nil_iff] at hnil
  exact dropWhile_ne_nil_of_not_all
    (fun hall => h (fun a ha => hall a (List.mem_reverse.mpr ha))) hnil

lemma rstripGo_cons_of {c : Char} {s : Str}
    (h : goSpace c = false ∨ rstripGo s ≠ []) :
    rstripGo (c :: s) = c :: rstripGo s := by
  unfold rstripGo
  rw [show (c :: s).reverse = s.reverse ++ [c] from by simp]
  by_cases hs : s.reverse.dropWhile goSpace = []
  · have hc : goSpace c = false := by
      rcases h with hc | hne
      · exact hc
      · exfalso
        apply hne
        unfold rstripGo
        rw [hs]
        rfl
    rw [dropWhile_append_all [c] (fun a ha => List.dropWhile_eq_nil_iff.mp hs a
      (List.mem_reverse.mp (List.mem_reverse.mpr ha)))]
    · rw [hs]
      simp [List.dropWhile_cons, hc]
  · rw [dropWhile_append_of_ne_nil [c] hs]
    simp

lemma tryStamp_none_head {l : Str} {d : Char} {r : Str}
    (hd : l.dropWhile goSpace = d :: r) (hne : d ≠ '✅') : tryStamp l = none := by
  unfold tryStamp
  rw [hd]
  split
  · rename_i r1 heq
    injection heq with h1 _
    exact absurd h1 hne
  · rfl

lemma tryStamp_none_drop_nil {l : Str} (hd : l.dropWhile goSpace = []) :
    tryStamp l = none := by
  unfold tryStamp
  rw [hd]

lemma tryStamp_check_head {l r1 : Str} (hd : l.dropWhile goSpace = '✅' :: r1) :
    tryStamp l =
      match matchYMD (r1.dropWhile goSpace) with
      | some (_, rest) => some rest
      | none => none := by
  unfold tryStamp
  rw [hd]
  rfl

lemma fmt_head_cons (dt : YMD) : ∃ c2 r2, fmtYMD dt = c2 :: r2 ∧ goSpace c2 = false := by
  refine ⟨digitChar (dt.y / 1000 % 10), _, rfl, ?_⟩
  exact (digitChar_facts _ (Nat.mod_lt _ (by norm_num))).2.2.2.2.1

lemma dropWhile_space_fmt (dt : YMD) :
    (' ' :: fmtYMD dt).dropWhile goSpace = fmtYMD dt := by
  obtain ⟨c2, r2, hf, hc2⟩ := fmt_head_cons dt
  rw [List.dropWhile_cons]
  rw [if_pos (by decide : goSpace ' ' = true)]
  rw [hf, List.dropWhile_cons, if_neg (by rw [hc2]; exact Bool.false_ne_true)]

lemma tryStamp_space_stamp (dt : YMD) {s : Str} (hall : ∀ a ∈ s, goSpace a = true) :
    tryStamp (s ++ ' ' :: '✅' :: ' ' :: fmtYMD dt) = some [] := by
  have hdrop : (s ++ ' ' :: '✅' :: ' ' :: fmtYMD dt).dropWhile goSpace =
      '✅' :: (' ' :: fmtYMD dt) := by
    rw [dropWhile_append_all _ hall]
    rw [List.dropWhile_cons, if_pos (by decide : goSpace ' ' = true)]
    rw [List.dropWhile_cons, if_neg (by decide)]
  rw [tryStamp_check_head hdrop]
  have hfmt : matchYMD ((' ' :: fmtYMD dt).dropWhile goSpace) = some (fmtYMD dt, []) := by
    rw [dropWhile_space_fmt dt]
    have hf0 := matchYMD_fmt dt []
    rwa [List.append_nil] at hf0
  rw [hfmt]

lemma stripDone_append_stamp (dt : YMD) {s : Str} (h : '✅' ∉ s) :
    stripDone (s ++ ' ' :: '✅' :: ' ' :: fmtYMD dt) = rstripGo s := by
  induction s with
  | nil =>
    rw [List.nil_append, stripDone_cons]
    rw [show (' ' :: ('✅' :: ' ' :: fmtYMD dt) : Str) =
      ([] : Str) ++ ' ' :: '✅' :: ' ' :: fmtYMD dt from rfl]
    rw [tryStamp_space_stamp dt (by intro a ha; simp at ha)]
    rfl
  | cons c s ih =>
    have hnoS : '✅' ∉ s := fun hm => h (List.mem_cons_of_mem c hm)
    have hnc : c ≠ '✅' := fun hm => h (by rw [hm]; exact List.mem_cons_self _ _)
    by_cases hall : ∀ a ∈ c :: s, goSpace a = true
    · rw [List.cons_append, stripDone_cons]
      rw [show (c :: (s ++ ' ' :: '✅' :: ' ' :: fmtYMD dt) : Str) =
        ((c :: s) ++ ' ' :: '✅' :: ' ' :: fmtYMD dt : Str) from rfl]
      rw [tryStamp_space_stamp dt hall]
      dsimp only
      rw [stripDone_nil, rstripGo_all_space hall]
    · rw [List.cons_append, stripDone_cons]
      by_cases hc : goSpace c = false
      · have hdrop : (c :: (s ++ ' ' :: '✅' :: ' ' :: fmtYMD dt)).dropWhile goSpace =
            c :: (s ++ ' ' :: '✅' :: ' ' :: fmtYMD dt) := by
          rw [List.dropWhile_cons, if_neg (by rw [hc]; exact Bool.false_ne_true)]
        rw [tryStamp_none_head hdrop hnc, ih hnoS]
        rw [rstripGo_cons_of (Or.inl hc)]
      · have hc2 : goSpace c = true := by
          cases hgc : goSpace c
          · exact absurd hgc hc
          · rfl
        have hsome : ¬ ∀ a ∈ s, goSpace a = true := by
          intro hallS
          exact hall (fun a ha => by
            rcases List.mem_cons.mp ha with rfl | ha2
            · exact hc2
            · exact hallS a ha2)
        obtain ⟨d, r, hdr⟩ : ∃ d r, s.dropWhile goSpace = d :: r := by
          match hds : s.dropWhile goSpace with
          | [] => exact absurd hds (dropWhile_ne_nil_of_not_all hsome)
          | d :: r => exact ⟨d, r, rfl⟩
        have hdne : d ≠ '✅' := by
          intro hdc
          apply hnoS
          subst hdc
          exact mem_of_mem_dropWhile (by rw [hdr]; exact List.mem_cons_self _ _)
        have hdrop : (c :: (s ++ ' ' :: '✅' :: ' ' :: fmtYMD dt)).dropWhile goSpace =
            d :: (r ++ ' ' :: '✅' :: ' ' :: fmtYMD dt) := by
          rw [List.dropWhile_cons, if_pos hc2]
          rw [dropWhile_append_of_ne_nil _ (by rw [hdr]; exact List.cons_ne_nil d r)]
          rw [hdr, List.cons_append]
        rw [tryStamp_none_head hdrop hdne, ih hnoS]
        rw [rstripGo_cons_of (Or.inr (rstripGo_ne_nil hsome))]

lemma findDue_no_cal {l : Str} (h : ∀ c ∈ l, c ≠ '📅') : findDueDigits l = none := by
  induction l with
  | nil => rfl
  | cons c t ih =>
    have hc : c ≠ '📅' := h c (by simp)
    simp only [findDueDigits, hc, if_false]
    exact ih (fun a ha => h a (by simp [ha]))

lemma findDue_dropPrefix {w l : Str} (hw : ∀ c ∈ w, c ≠ '📅') :
    findDueDigits (w ++ l) = findDueDigits l := by
  induction w with
  | nil => rfl
  | cons c t ih =>
    have hc : c ≠ '📅' := hw c (by simp)
    simp only [List.cons_append, findDueDigits, hc, if_false]
    exact ih (fun a ha => hw a (by simp [ha]))

lemma findDue_append {x sp : Str} (hsp : ∀ c ∈ sp, c ≠ '📅')
    (hmm : ∀ dx : Str, matchYMD dx = none → matchYMD (dx ++ sp) = none)
    (hlead : matchYMD (sp.dropWhile goSpace) = none) :
    findDueDigits (x ++ sp) = findDueDigits x := by
  induction x with
  | nil =>
    rw [List.nil_append]
    exact findDue_no_cal hsp
  | cons c x ih =>
    by_cases hc : c = '📅'
    · simp only [List.cons_append, findDueDigits, hc, if_true, if_pos, List.append_eq]
      by_cases hall : ∀ a ∈ x, goSpace a = true
      · have h1 : (x ++ sp).dropWhile goSpace = sp.dropWhile goSpace :=
          dropWhile_append_all sp hall
        have h2 : x.dropWhile goSpace = [] := List.dropWhile_eq_nil_iff.mpr hall
        rw [h1, h2, hlead]
        rw [show matchYMD ([] : Str) = none from rfl]
        exact ih
      · obtain ⟨d, r, hdr⟩ : ∃ d r, x.dropWhile goSpace = d :: r := by
          match hds : x.dropWhile goSpace with
          | [] => exact absurd hds (dropWhile_ne_nil_of_not_all hall)
          | d :: r => exact ⟨d, r, rfl⟩
        have h1 : (x ++ sp).dropWhile goSpace = (d :: r) ++ sp := by
          rw [dropWhile_append_of_ne_nil sp (by rw [hdr]; exact List.cons_ne_nil d r), hdr]
        rw [h1, hdr]
        match hm : matchYMD (d :: r) with
        | some (mm, rr) =>
          have h2 : matchYMD (d :: (r ++ sp)) = some (mm, rr ++ sp) := by
            have h3 := matchPat_append_some ymdPat (d :: r) mm rr sp hm
            rwa [List.cons_append] at h3
          rw [List.cons_append, h2]
        | none =>
          have h2 : matchYMD (d :: (r ++ sp)) = none := by
            have h3 := hmm (d :: r) hm
            rwa [List.cons_append] at h3
          rw [List.cons_append, h2]
          exact ih
    · simp only [List.cons_append, findDueDigits, hc, if_false]
      exact ih

lemma findDue_append_uniSpace {x sp : Str} (hsp : ∀ c ∈ sp, uniSpace c = true) :
    findDueDigits (x ++ sp) = findDueDigits x := by
  refine findDue_append (fun c hc => (uniSpace_char_facts (hsp c hc)).1) ?_ ?_
  · intro dx hdx
    match hsp2 : sp with
    | [] => rw [List.append_nil]; exact hdx
    | c0 :: z =>
      exact matchPat_append_none ymdPat dx c0 z
        (fun p hp => (uniSpace_char_facts (hsp c0 (by simp))).2.2.1 p hp) hdx
  · exact matchYMD_uniSpace_lead
      (fun c hc => hsp c (mem_of_mem_dropWhile hc))

lemma stamp_chars (dt : YMD) :
    ∀ c ∈ (' ' :: '✅' :: ' ' :: fmtYMD dt : Str),
      c ≠ '📅' ∧ glyphRank c = none := by
  intro c hc
  rcases List.mem_cons.mp hc with rfl | hc
  · exact ⟨by decide, by decide⟩
  rcases List.mem_cons.mp hc with rfl | hc
  · exact ⟨by decide, by decide⟩
  rcases List.mem_cons.mp hc with rfl | hc
  · exact ⟨by decide, by decide⟩
  · obtain ⟨h1, _, h3, _⟩ := fmt_chars hc
    exact ⟨h1, h3⟩

lemma findDue_append_stamp (dt : YMD) (x : Str) :
    findDueDigits (x ++ ' ' :: '✅' :: ' ' :: fmtYMD dt) = findDueDigits x := by
  refine findDue_append (fun c hc => (stamp_chars dt c hc).1) ?_ ?_
  · intro dx hdx
    exact matchPat_append_none ymdPat dx ' ' ('✅' :: ' ' :: fmtYMD dt) ymdPat_space hdx
  · have hdrop : ((' ' :: '✅' :: ' ' :: fmtYMD dt : Str)).dropWhile goSpace =
        '✅' :: ' ' :: fmtYMD dt := by
      rw [List.dropWhile_cons, if_pos (by decide : goSpace ' ' = true)]
      rw [List.dropWhile_cons, if_neg (by decide)]
    rw [hdrop]
    exact matchYMD_check_lead _

lemma findGlyph_append_nog {x sp : Str} (hsp : ∀ c ∈ sp, glyphRank c = none) :
    findGlyph (x ++ sp) = findGlyph x := by
  induction x with
  | nil =>
    rw [List.nil_append]
    exact findGlyph_none hsp
  | cons c x ih =>
    simp only [List.cons_append, findGlyph]
    by_cases hc : (glyphRank c).isSome = true
    · rw [if_pos hc, if_pos hc]
    · rw [if_neg hc, if_neg hc]
      exact ih

lemma findGlyph_dropPrefix {w l : Str} (hw : ∀ c ∈ w, glyphRank c = none) :
    findGlyph (w ++ l) = findGlyph l := by
  induction w with
  | nil => rfl
  | cons c t ih =>
    have hc : glyphRank c = none := hw c (by simp)
    simp only [List.cons_append, findGlyph, hc, Option.isSome_none,
      Bool.false_eq_true, if_false]
    exact ih (fun a ha => hw a (by simp [ha]))

lemma trimLeft_dropWhileGo (l : Str) : trimLeft (l.dropWhile goSpace) = trimLeft l := by
  induction l with
  | nil => rfl
  | cons c t ih =>
    by_cases hc : goSpace c = true
    · rw [List.dropWhile_cons, if_pos hc]
      rw [show trimLeft (c :: t) = trimLeft t from by
        unfold trimLeft
        rw [List.dropWhile_cons, if_pos (go_imp_uni hc)]]
      exact ih
    · rw [List.dropWhile_cons, if_neg hc]

lemma trimLeft_decomp (l : Str) :
    ∃ w, l = w ++ trimLeft l ∧ ∀ c ∈ w, uniSpace c = true :=
  ⟨l.takeWhile uniSpace, (List.takeWhile_append_dropWhile uniSpace l).symm,
    fun _ hc => List.mem_takeWhile_imp hc⟩

lemma trimRight_decomp (l : Str) :
    ∃ sp, l = trimRight l ++ sp ∧ ∀ c ∈ sp, uniSpace c = true := by
  refine ⟨(l.reverse.takeWhile uniSpace).reverse, ?_, ?_⟩
  · unfold trimRight
    rw [← List.reverse_append]
    rw [List.takeWhile_append_dropWhile]
    rw [List.reverse_reverse]
  · intro c hc
    rw [List.mem_reverse] at hc
    exact List.mem_takeWhile_imp hc

lemma findDue_norm (x : Str) :
    findDueDigits (trimSpace (x.dropWhile goSpace)) = findDueDigits x := by
  unfold trimSpace
  rw [trimLeft_dropWhileGo]
  obtain ⟨sp, hdec, hsp⟩ := trimRight_decomp (trimLeft x)
  obtain ⟨w, hdec2, hw⟩ := trimLeft_decomp x
  calc findDueDigits (trimRight (trimLeft x))
      = findDueDigits (trimRight (trimLeft x) ++ sp) :=
        (findDue_append_uniSpace hsp).symm
    _ = findDueDigits (trimLeft x) := by rw [← hdec]
    _ = findDueDigits (w ++ trimLeft x) :=
        (findDue_dropPrefix
          (fun c hc => (uniSpace_char_facts (hw c hc)).1)).symm
    _ = findDueDigits x := by rw [← hdec2]

lemma findGlyph_norm (x : Str) :
    findGlyph (trimSpace (x.dropWhile goSpace)) = findGlyph x := by
  unfold trimSpace
  rw [trimLeft_dropWhileGo]
  obtain ⟨sp, hdec, hsp⟩ := trimRight_decomp (trimLeft x)
  obtain ⟨w, hdec2, hw⟩ := trimLeft_decomp x
  calc findGlyph (trimRight (trimLeft x))
      = findGlyph (trimRight (trimLeft x) ++ sp) :=
        (findGlyph_append_nog
          (fun c hc => (uniSpace_char_facts (hsp c hc)).2.2.2)).symm
    _ = findGlyph (trimLeft x) := by rw [← hdec]
    _ = findGlyph (w ++ trimLeft x) :=
        (findGlyph_dropPrefix
          (fun c hc => (uniSpace_char_facts (hw c hc)).2.2.2)).symm
    _ = findGlyph x := by rw [← hdec2]

lemma parseDueDate_norm (x : Str) :
    parseDueDate (trimSpace (x.dropWhile goSpace)) = parseDueDate x := by
  unfold parseDueDate
  rw [findDue_norm]

lemma parsePriority_norm (x : Str) :
    parsePriority (trimSpace (x.dropWhile goSpace)) = parsePriority x := by
  unfold parsePriority
  rw [findGlyph_norm]

lemma parseDueDate_append_stamp (dt : YMD) (x : Str) :
    parseDueDate (x ++ ' ' :: '✅' :: ' ' :: fmtYMD dt) = parseDueDate x := by
  unfold parseDueDate
  rw [findDue_append_stamp]

lemma parsePriority_append_stamp (dt : YMD) (x : Str) :
    parsePriority (x ++ ' ' :: '✅' :: ' ' :: fmtYMD dt) = parsePriority x := by
  unfold parsePriority
  rw [findGlyph_append_nog (fun c hc => (stamp_chars dt c hc).2)]

lemma parseCheckbox_inv {l pre : Str} {c : Char} {rest : Str}
    (h : parseCheckbox l = some (pre, c, rest)) :
    ∃ ws1 ws2, pre = ws1 ++ '-' :: ws2 ∧ (∀ a ∈ ws1, goSpace a = true) ∧
      (∀ a ∈ ws2, goSpace a = true) ∧ l = pre ++ '[' :: c :: ']' :: rest ∧
      (c = ' ' ∨ c = 'x' ∨ c = 'X') := by
  unfold parseCheckbox at h
  split at h
  · rename_i r1 heq1
    split at h
    · rename_i c2 rest2 heq2
      split_ifs at h with hc
      · simp only [Option.some.injEq, Prod.mk.injEq] at h
        obtain ⟨hpre, hcc, hrest⟩ := h
        subst hpre
        subst hcc
        subst hrest
        refine ⟨l.takeWhile goSpace, r1.takeWhile goSpace, rfl,
          fun a ha => List.mem_takeWhile_imp ha,
          fun a ha => List.mem_takeWhile_imp ha, ?_, ?_⟩
        · have hl1 : l = l.takeWhile goSpace ++ l.dropWhile goSpace :=
            (List.takeWhile_append_dropWhile goSpace l).symm
          have hr1 : r1 = r1.takeWhile goSpace ++ r1.dropWhile goSpace :=
            (List.takeWhile_append_dropWhile goSpace r1).symm
          rw [heq1] at hl1
          rw [heq2] at hr1
          conv_lhs => rw [hl1, hr1]
          simp [List.append_assoc]
        · have hx : (c2 = ' ' ∨ c2 = 'x') ∨ c2 = 'X' := by simpa using hc
          tauto
    · exact absurd h (by simp)
  · exact absurd h (by simp)

lemma parseCheckbox_build {ws1 ws2 rest : Str} {c : Char}
    (h1 : ∀ a ∈ ws1, goSpace a = true) (h2 : ∀ a ∈ ws2, goSpace a = true)
    (hc : c = ' ' ∨ c = 'x' ∨ c = 'X') :
    parseCheckbox ((ws1 ++ '-' :: ws2) ++ '[' :: c :: ']' :: rest) =
      some (ws1 ++ '-' :: ws2, c, rest) := by
  have hshape : ((ws1 ++ '-' :: ws2) ++ '[' :: c :: ']' :: rest : Str) =
      ws1 ++ '-' :: (ws2 ++ '[' :: c :: ']' :: rest) := by
    simp [List.append_assoc]
  have hdA : ((ws1 ++ '-' :: ws2) ++ '[' :: c :: ']' :: rest : Str).dropWhile goSpace =
      '-' :: (ws2 ++ '[' :: c :: ']' :: rest) := by
    rw [hshape]
    exact dropWhile_append_sat ws1 '-' _ h1 (by decide)
  have htA : ((ws1 ++ '-' :: ws2) ++ '[' :: c :: ']' :: rest : Str).takeWhile goSpace =
      ws1 := by
    rw [hshape]
    exact takeWhile_append_sat ws1 '-' _ h1 (by decide)
  have hdB : (ws2 ++ '[' :: c :: ']' :: rest : Str).dropWhile goSpace =
      '[' :: c :: ']' :: rest :=
    dropWhile_append_sat ws2 '[' _ h2 (by decide)
  have htB : (ws2 ++ '[' :: c :: ']' :: rest : Str).takeWhile goSpace = ws2 :=
    takeWhile_append_sat ws2 '[' _ h2 (by decide)
  have hcb : (c = ' ' || c = 'x' || c = 'X') = true := by
    rcases hc with rfl | rfl | rfl <;> rfl
  have step1 : parseCheckbox ((ws1 ++ '-' :: ws2) ++ '[' :: c :: ']' :: rest) =
      (match (ws2 ++ '[' :: c :: ']' :: rest : Str).dropWhile goSpace with
       | '[' :: c2 :: ']' :: rest2 =>
         if c2 = ' ' || c2 = 'x' || c2 = 'X' then
           some (((ws1 ++ '-' :: ws2) ++ '[' :: c :: ']' :: rest : Str).takeWhile goSpace ++
             '-' :: (ws2 ++ '[' :: c :: ']' :: rest : Str).takeWhile goSpace, c2, rest2)
         else none
       | _ => none) := by
    unfold parseCheckbox
    rw [hdA]
    rfl
  rw [step1, hdB, htA, htB]
  show (if c = ' ' || c = 'x' || c = 'X' then
      some (ws1 ++ '-' :: ws2, c, rest) else none) = some (ws1 ++ '-' :: ws2, c, rest)
  rw [if_pos hcb]

lemma parseTaskLine_inv {fp : Str} {ln : Int} {l : Str} {t : Task}
    (h : parseTaskLine fp ln l = some t) :
    ∃ pre c rest, parseCheckbox l = some (pre, c, rest) ∧
      t = { FilePath := fp, LineNumber := ln, RawLine := l,
            Done := (c = 'x' || c = 'X'),
            Description := trimSpace (rest.dropWhile goSpace), Modified := false,
            DueDate := parseDueDate (trimSpace (rest.dropWhile goSpace)),
            Priority := parsePriority (trimSpace (rest.dropWhile goSpace)) } := by
  unfold parseTaskLine at h
  split at h
  · exact absurd h (by simp)
  · rename_i pre c rest heq
    injection h with h
    exact ⟨pre, c, rest, heq, h.symm⟩

lemma parseTaskLine_build {fp rest l pre : Str} {ln : Int} {c : Char}
    (h : parseCheckbox l = some (pre, c, rest)) :
    parseTaskLine fp ln l =
      some { FilePath := fp, LineNumber := ln, RawLine := l,
             Done := (c = 'x' || c = 'X'),
             Description := trimSpace (rest.dropWhile goSpace), Modified := false,
             DueDate := parseDueDate (trimSpace (rest.dropWhile goSpace)),
             Priority := parsePriority (trimSpace (rest.dropWhile goSpace)) } := by
  unfold parseTaskLine
  rw [h]

lemma toggle_done (t : Task) (today : YMD) : (t.Toggle today).Done = !t.Done := by
  unfold Task.Toggle updateRawLine
  split
  · rfl
  · rename_i pre c2 content heq
    split_ifs <;> rfl

lemma updateRawLine_eq {t : Task} {pre rest : Str} {c : Char} (today : YMD)
    (hp : parseCheckbox t.RawLine = some (pre, c, rest)) :
    updateRawLine today t =
      (if t.Done then
        { t with RawLine := pre ++ '[' :: 'x' :: ']' ::
            (stripDone rest ++ ' ' :: '✅' :: ' ' :: fmtYMD today) }
      else
        { t with RawLine := pre ++ '[' :: ' ' :: ']' :: stripDone rest }) := by
  unfold updateRawLine
  rw [hp]

lemma toggle_rawline {t : Task} {pre rest : Str} {c : Char} (today : YMD)
    (hp : parseCheckbox t.RawLine = some (pre, c, rest)) :
    (t.Toggle today).RawLine =
      (if t.Done then pre ++ '[' :: ' ' :: ']' :: stripDone rest
       else pre ++ '[' :: 'x' :: ']' ::
         (stripDone rest ++ ' ' :: '✅' :: ' ' :: fmtYMD today)) := by
  unfold Task.Toggle
  have hp2 : parseCheckbox ({ t with Done := !t.Done, Modified := true } : Task).RawLine =
      some (pre, c, rest) := hp
  rw [updateRawLine_eq today hp2]
  cases hd : t.Done <;> simp [hd]

/-- C2 counterexample: toggling `- [ ] a` yields `- [x] a ✅ 2026-10-11`,
whose re-extracted description differs from the original, refuting
"description … unchanged"; and on a line where the done-date stamp separates
`📅` from a second date, stripping the stamp creates a due-date token, so the
re-extracted due date also changes. -/
theorem c2_counterexample :
    ((parseTaskLine [] 1 lineA).map Task.Description = some "a".toList) ∧
    (((parseTaskLine [] 1 lineA).bind
        (fun t => parseTaskLine [] 1 (t.Toggle day0).RawLine)).map Task.Description =
      some "a ✅ 2026-10-11".toList) ∧
    ("a ✅ 2026-10-11".toList ≠ "a".toList) ∧
    ((parseTaskLine [] 1 lineDue).map Task.DueDate = some none) ∧
    (((parseTaskLine [] 1 lineDue).bind
        (fun t => parseTaskLine [] 1 (t.Toggle day0).RawLine)).map Task.DueDate =
      some (some ⟨2021, 3, 4⟩)) := by
  refine ⟨?_, ?_, ?_, ?_, ?_⟩ <;> decide

/-- C2 (amended): for every recognized task line containing no `✅`
character, toggling flips `Done` and rewrites the line as
the original prefix, the flipped checkbox, and the original content — with
` ✅ <today>` appended exactly when now done. Re-extracting the saved line
yields the flipped `Done` with priority and due date unchanged; the
description is unchanged when toggling done→not-done, and gains exactly the
appended stamp when toggling not-done→done. Toggling twice restores the
original `Done`; from a not-done start the raw line is restored up to
removal of the content's trailing whitespace (swallowed with the stamp). -/
theorem c2_toggle_roundtrip_amended (fp : Str) (ln : Int) (l : Str) (t : Task)
    (today : YMD) (hp : parseTaskLine fp ln l = some t) (hno : '✅' ∉ l) :
    ∃ pre c rest,
      parseCheckbox l = some (pre, c, rest) ∧
      (t.Toggle today).Done = (!t.Done) ∧
      ((t.Toggle today).RawLine =
        (if t.Done then pre ++ '[' :: ' ' :: ']' :: rest
         else pre ++ '[' :: 'x' :: ']' :: (rest ++ ' ' :: '✅' :: ' ' :: fmtYMD today))) ∧
      (∃ t2, parseTaskLine fp ln (t.Toggle today).RawLine = some t2 ∧
        t2.Done = (!t.Done) ∧
        t2.Priority = t.Priority ∧
        t2.DueDate = t.DueDate ∧
        (t.Done = true → t2.Description = t.Description) ∧
        (t.Done = false →
          t2.Description =
            trimSpace ((rest ++ ' ' :: '✅' :: ' ' :: fmtYMD today).dropWhile goSpace))) ∧
      (((t.Toggle today).Toggle today).Done = t.Done) ∧
      (t.Done = false →
        ((t.Toggle today).Toggle today).RawLine =
          pre ++ '[' :: ' ' :: ']' :: rstripGo rest) := by
  obtain ⟨pre, c, rest, hpc, ht⟩ := parseTaskLine_inv hp
  obtain ⟨ws1, ws2, hpre, hws1, hws2, hl, hcval⟩ := parseCheckbox_inv hpc
  have hnoRest : '✅' ∉ rest := by
    intro hm
    apply hno
    rw [hl]
    exact List.mem_append_right _ (by simp [hm])
  have hstrip : stripDone rest = rest := stripDone_no_check hnoRest
  have hpct : parseCheckbox t.RawLine = some (pre, c, rest) := by rw [ht]; exact hpc
  have hline := toggle_rawline today hpct
  rw [hstrip] at hline
  have hDesc : t.Description = trimSpace (rest.dropWhile goSpace) := by rw [ht]
  have hDue : t.DueDate = parseDueDate (trimSpace (rest.dropWhile goSpace)) := by rw [ht]
  have hPrio : t.Priority = parsePriority (trimSpace (rest.dropWhile goSpace)) := by
    rw [ht]
  refine ⟨pre, c, rest, hpc, toggle_done t today, hline, ?_, ?_, ?_⟩
  · cases hd : t.Done
    · have hline2 : (t.Toggle today).RawLine =
          pre ++ '[' :: 'x' :: ']' :: (rest ++ ' ' :: '✅' :: ' ' :: fmtYMD today) := by
        rw [hline, hd]
        rfl
      have hpc2 : parseCheckbox ((t.Toggle today).RawLine) =
          some (pre, 'x', rest ++ ' ' :: '✅' :: ' ' :: fmtYMD today) := by
        rw [hline2, hpre]
        exact parseCheckbox_build hws1 hws2 (Or.inr (Or.inl rfl))
      refine ⟨_, parseTaskLine_build hpc2, ?_, ?_, ?_, ?_, ?_⟩
      · rfl
      · show parsePriority (trimSpace
          ((rest ++ ' ' :: '✅' :: ' ' :: fmtYMD today).dropWhile goSpace)) = t.Priority
        rw [parsePriority_norm, parsePriority_append_stamp, hPrio, parsePriority_norm]
      · show parseDueDate (trimSpace
          ((rest ++ ' ' :: '✅' :: ' ' :: fmtYMD today).dropWhile goSpace)) = t.DueDate
        rw [parseDueDate_norm, parseDueDate_append_stamp, hDue, parseDueDate_norm]
      · intro hcontra
        exact absurd hcontra (by decide)
      · intro _
        rfl
    · have hline2 : (t.Toggle today).RawLine = pre ++ '[' :: ' ' :: ']' :: rest := by
        rw [hline, hd]
        rfl
      have hpc2 : parseCheckbox ((t.Toggle today).RawLine) = some (pre, ' ', rest) := by
        rw [hline2, hpre]
        exact parseCheckbox_build hws1 hws2 (Or.inl rfl)
      refine ⟨_, parseTaskLine_build hpc2, ?_, ?_, ?_, ?_, ?_⟩
      · rfl
      · show parsePriority (trimSpace (rest.dropWhile goSpace)) = t.Priority
        rw [hPrio]
      · show parseDueDate (trimSpace (rest.dropWhile goSpace)) = t.DueDate
        rw [hDue]
      · intro _
        show trimSpace (rest.dropWhile goSpace) = t.Description
        rw [hDesc]
      · intro hcontra
        exact absurd hcontra (by decide)
  · rw [toggle_done, toggle_done, Bool.not_not]
  · intro hd
    have hline2 : (t.Toggle today).RawLine =
        pre ++ '[' :: 'x' :: ']' :: (rest ++ ' ' :: '✅' :: ' ' :: fmtYMD today) := by
      rw [hline, hd]
      rfl
    have hpc2 : parseCheckbox ((t.Toggle today).RawLine) =
        some (pre, 'x', rest ++ ' ' :: '✅' :: ' ' :: fmtYMD today) := by
      rw [hline2, hpre]
      exact parseCheckbox_build hws1 hws2 (Or.inr (Or.inl rfl))
    have hline3 := toggle_rawline today hpc2
    have hd2 : (t.Toggle today).Done = true := by rw [toggle_done, hd]; rfl
    rw [hline3, hd2, if_pos rfl]
    rw [stripDone_append_stamp today hnoRest]

/-- C2 witness: the amended round trip evaluated on the concrete line
`- [ ] a` and the date 2026-10-11. -/
theorem c2_witness :
    ∃ pre c rest,
      parseCheckbox lineA = some (pre, c, rest) ∧
      (taskA.Toggle day0).Done = (!taskA.Done) ∧
      ((taskA.Toggle day0).RawLine =
        (if taskA.Done then pre ++ '[' :: ' ' :: ']' :: rest
         else pre ++ '[' :: 'x' :: ']' :: (rest ++ ' ' :: '✅' :: ' ' :: fmtYMD day0))) ∧
      (∃ t2, parseTaskLine [] 1 (taskA.Toggle day0).RawLine = some t2 ∧
        t2.Done = (!taskA.Done) ∧
        t2.Priority = taskA.Priority ∧
        t2.DueDate = taskA.DueDate ∧
        (taskA.Done = true → t2.Description = taskA.Description) ∧
        (taskA.Done = false →
          t2.Description =
            trimSpace ((rest ++ ' ' :: '✅' :: ' ' :: fmtYMD day0).dropWhile goSpace))) ∧
      (((taskA.Toggle day0).Toggle day0).Done = taskA.Done) ∧
      (taskA.Done = false →
        ((taskA.Toggle day0).Toggle day0).RawLine =
          pre ++ '[' :: ' ' :: ']' :: rstripGo rest) :=
  c2_toggle_roundtrip_amended [] 1 lineA taskA day0 (by decide) (by decide)

end OT
